import Mathlib

/-!
# Order book core: shallow embedding and verification

This file embeds the limit-order-book core of `src/orderbook/orderbook.cpp`
into Lean and proves the testable properties of the specification against it.

Modelling choices, each justified by the source:

* Quantities (`uint64_t` in the source) are `Nat`s, with every arithmetic
  step on a stored aggregate performed modulo `2 ^ 64` (`add64`, `sub64`),
  exactly as unsigned 64-bit `+=` / `-=` behave.
* Prices (`double` in the source) are modelled as exact integers.  The
  specification's data model calls the price "a totally-ordered numeric type"
  and the claims use only exact integral prices, where `double` comparison
  (`<`, `!=`, map ordering) coincides with integer comparison.
* The two `std::map`s (`bids` with `std::greater`, `asks` ascending) are
  association lists sorted strictly by the side's comparator; `operator[]`,
  `find` and `erase` are `mapInsert`, `mapLookup` and `mapErase`.
* A `Node` (a pool slot holding a copy of the `Order` plus intrusive
  `prev`/`next` links) is identified by a `NodeId`.  Each price level's
  doubly linked chain is the list of the `NodeId`s it holds, head first;
  splicing a node out of the chain is removal from that list.  `MemoryPool`
  hands out slots that are never reclaimed while linked, so live-slot
  identity is modelled by a fresh counter `next_node`; `deallocate` deletes
  the record from the `nodes` store.
* `std::unordered_map<uint64_t, Node*> order_lookup` and the node store are
  total functions into `Option`, since they are only read and written
  pointwise (never iterated).
-/

set_option maxHeartbeats 1600000

namespace OrderBook

/-- The modulus of `uint64_t`, the type of all quantities in the source. -/
def w64 : Nat := 2 ^ 64

/-- Unsigned 64-bit addition (`a + b` on `uint64_t` values). -/
def add64 (a b : Nat) : Nat := (a + b) % w64

/-- Unsigned 64-bit subtraction (`a - b` on `uint64_t`, for a stored value
`a < 2 ^ 64`). -/
def sub64 (a b : Nat) : Nat := (a + (w64 - b % w64)) % w64

/-- Mirrors `struct Order` (orderbook.cpp lines 10-16). -/
structure Order where
  order_id : Nat
  is_buy : Bool
  price : Int
  quantity : Nat
  timestamp_ns : Nat
deriving DecidableEq, Repr

/-- Handle of a resting order record: stands for the `Node*` of one live
pool slot. -/
abbrev NodeId := Nat

/-- Mirrors `struct PriceLevelData` (lines 70-74): the aggregate quantity
and the head-to-tail chain of records resting at one price. -/
structure PriceLevelData where
  total_quantity : Nat
  chain : List NodeId
deriving DecidableEq, Repr

/-- Mirrors `struct PriceLevel` (lines 18-21), the snapshot output entry. -/
structure PriceLevel where
  price : Int
  total_quantity : Nat
deriving DecidableEq, Repr

/-- One side's `std::map<double, PriceLevelData, cmp>`: an association list
kept sorted strictly by the side's comparator. -/
abbrev SideMap := List (Int × PriceLevelData)

/-- `side.find(price)` on the association list. -/
def mapLookup (p : Int) : SideMap → Option PriceLevelData
  | [] => none
  | e :: rest => if e.1 = p then some e.2 else mapLookup p rest

/-- Store `v` at key `p`: replaces the existing entry, or inserts a new one
at its comparator-sorted position (the net effect of `side[price] = ...`). -/
def mapInsert (cmp : Int → Int → Bool) (p : Int) (v : PriceLevelData) : SideMap → SideMap
  | [] => [(p, v)]
  | e :: rest =>
    if e.1 = p then (p, v) :: rest
    else if cmp p e.1 then (p, v) :: e :: rest
    else e :: mapInsert cmp p v rest

/-- `side.erase(it)` for the entry with key `p`. -/
def mapErase (p : Int) : SideMap → SideMap
  | [] => []
  | e :: rest => if e.1 = p then rest else e :: mapErase p rest

/-- `std::greater<double>`: the bids map keeps the highest price first. -/
def bidCmp (a b : Int) : Bool := decide (b < a)

/-- The default `std::less<double>`: the asks map keeps the lowest price
first. -/
def askCmp (a b : Int) : Bool := decide (a < b)

/-- The comparator of the side selected by `is_buy`. -/
def cmpOf (b : Bool) : Int → Int → Bool := if b then bidCmp else askCmp

/-- The state of one `OrderBook` (lines 60-79): the two price-sorted side
maps, the live record store, the id index, and the allocation counter. -/
@[ext]
structure State where
  bids : SideMap
  asks : SideMap
  nodes : NodeId → Option Order
  order_lookup : Nat → Option NodeId
  next_node : NodeId

/-- `node->is_buy ? bids : asks`. -/
def sideOf (s : State) (b : Bool) : SideMap := if b then s.bids else s.asks

theorem sideOf_true (s : State) : sideOf s true = s.bids := rfl

theorem sideOf_false (s : State) : sideOf s false = s.asks := rfl

/-- Write back the side selected by `is_buy`. -/
def setSide (s : State) (b : Bool) (m : SideMap) : State :=
  if b then { s with bids := m } else { s with asks := m }

/-- A default-constructed `OrderBook`. -/
def emptyBook : State :=
  { bids := [], asks := [], nodes := fun _ => none,
    order_lookup := fun _ => none, next_node := 0 }

/-- Lines 88-98 of `add_order` and 182-192 of `amend_order`: fetch or
default-construct the level at `p` (`side[price]`), add `q` to its
aggregate, and link the record `nid` at the tail of its chain. -/
def appendToLevel (cmp : Int → Int → Bool) (m : SideMap) (p : Int)
    (nid : NodeId) (q : Nat) : SideMap :=
  mapInsert cmp p
    ⟨add64 ((mapLookup p m).getD ⟨0, []⟩).total_quantity q,
     ((mapLookup p m).getD ⟨0, []⟩).chain ++ [nid]⟩ m

/-- Lines 109-130 of `cancel_order` and 154-175 of `amend_order`: find the
level at `p` (`none` models the silent `return false` when it is absent),
subtract `q` from its aggregate, splice the record `nid` out of its chain,
and erase the level when the chain becomes empty. -/
def removeFromLevel (cmp : Int → Int → Bool) (m : SideMap) (p : Int)
    (nid : NodeId) (q : Nat) : Option SideMap :=
  match mapLookup p m with
  | none => none
  | some lvl =>
    some (if lvl.chain.filter (fun x => decide (x ≠ nid)) = [] then mapErase p m
          else mapInsert cmp p
            ⟨sub64 lvl.total_quantity q,
             lvl.chain.filter (fun x => decide (x ≠ nid))⟩ m)

/-- `OrderBook::add_order` (lines 82-99): allocate a record, copy the order
in, point the index at it, and append it to the tail of its side/price
level. -/
def add_order (s : State) (o : Order) : State :=
  let nid := s.next_node
  { setSide s o.is_buy
      (appendToLevel (cmpOf o.is_buy) (sideOf s o.is_buy) o.price nid o.quantity) with
    nodes := fun n => if n = nid then some o else s.nodes n,
    order_lookup := fun i => if i = o.order_id then some nid else s.order_lookup i,
    next_node := nid + 1 }

/-- `OrderBook::cancel_order` (lines 101-135): locate the record through the
index (`none` means `return false` untouched), unlink it from its level,
drop the level if emptied, erase the index entry and free the record. -/
def cancel_order (s : State) (order_id : Nat) : Bool × State :=
  match s.order_lookup order_id with
  | none => (false, s)
  | some nid =>
    match s.nodes nid with
    | none => (false, s)
    | some nd =>
      match removeFromLevel (cmpOf nd.is_buy) (sideOf s nd.is_buy) nd.price nid
          nd.quantity with
      | none => (false, s)
      | some m' =>
        (true,
         { setSide s nd.is_buy m' with
           nodes := fun n => if n = nid then none else s.nodes n,
           order_lookup := fun i => if i = order_id then none else s.order_lookup i })

/-- `OrderBook::amend_order` (lines 137-207).  Zero quantity delegates to
`cancel_order`; a price change unlinks the record from its old level,
rewrites its price/quantity and appends it at the tail of the new level;
same price only rewrites the aggregate and the record's quantity. -/
def amend_order (s : State) (order_id : Nat) (new_price : Int)
    (new_quantity : Nat) : Bool × State :=
  match s.order_lookup order_id with
  | none => (false, s)
  | some nid =>
    match s.nodes nid with
    | none => (false, s)
    | some nd =>
      if new_quantity = 0 then
        cancel_order s order_id
      else if new_price ≠ nd.price then
        match removeFromLevel (cmpOf nd.is_buy) (sideOf s nd.is_buy) nd.price nid
            nd.quantity with
        | none => (false, s)
        | some m1 =>
          (true,
           { setSide s nd.is_buy
               (appendToLevel (cmpOf nd.is_buy) m1 new_price nid new_quantity) with
             nodes := fun n =>
               if n = nid then
                 some { nd with price := new_price, quantity := new_quantity }
               else s.nodes n })
      else
        match mapLookup nd.price (sideOf s nd.is_buy) with
        | none => (false, s)
        | some lvl =>
          (true,
           { setSide s nd.is_buy
               (mapInsert (cmpOf nd.is_buy) nd.price
                 ⟨add64 (sub64 lvl.total_quantity nd.quantity) new_quantity,
                  lvl.chain⟩ (sideOf s nd.is_buy)) with
             nodes := fun n =>
               if n = nid then some { nd with quantity := new_quantity }
               else s.nodes n })

/-- `OrderBook::get_snapshot` (lines 209-226): up to `depth` levels per
side in map iteration order, as `(price, total_quantity)` pairs.  The
method is `const`; the embedding is a pure function of the state. -/
def get_snapshot (s : State) (depth : Nat) : List PriceLevel × List PriceLevel :=
  ((s.bids.take depth).map (fun e => ⟨e.1, e.2.total_quantity⟩),
   (s.asks.take depth).map (fun e => ⟨e.1, e.2.total_quantity⟩))

/-- One public mutating call of the facade. -/
inductive Op where
  | add (o : Order)
  | cancel (order_id : Nat)
  | amend (order_id : Nat) (new_price : Int) (new_quantity : Nat)
deriving DecidableEq, Repr

/-- Run one operation, keeping only the state. -/
def applyOp (s : State) : Op → State
  | .add o => add_order s o
  | .cancel order_id => (cancel_order s order_id).2
  | .amend order_id p q => (amend_order s order_id p q).2

/-- Run a sequence of operations. -/
def runOps (s : State) : List Op → State
  | [] => s
  | op :: rest => runOps (applyOp s op) rest

/-- The caller-side precondition of one operation: `add` requires an unused
identifier and a positive quantity (spec section 4.3), and quantity
arguments are `uint64_t` values, hence below `2 ^ 64`. -/
def opOk (s : State) : Op → Bool
  | .add o =>
      decide (s.order_lookup o.order_id = none) && decide (0 < o.quantity) &&
        decide (o.quantity < w64)
  | .cancel _ => true
  | .amend _ _ q => decide (q < w64)

/-- Every operation of the trace satisfies its precondition in the state it
is applied to. -/
def validFrom (s : State) : List Op → Bool
  | [] => true
  | op :: rest => opOk s op && validFrom (applyOp s op) rest

/-! ## Arithmetic of `uint64_t` aggregates -/

theorem w64_pos : 0 < w64 := by simp [w64]

theorem add64_lt (a b : Nat) : add64 a b < w64 :=
  Nat.mod_lt _ w64_pos

theorem sub64_lt (a b : Nat) : sub64 a b < w64 :=
  Nat.mod_lt _ w64_pos

theorem sub64_add64_cancel {a : Nat} (b : Nat) (ha : a < w64) :
    sub64 (add64 a b) b = a := by
  simp only [add64, sub64, w64] at *
  omega

theorem sub64_add_left {a b : Nat} (ha : a < w64) :
    sub64 ((a + b) % w64) a = b % w64 := by
  simp only [sub64, w64] at *
  omega

theorem add64_mod_left (a b : Nat) : add64 (a % w64) b = (a + b) % w64 := by
  simp only [add64, w64]
  omega

/-! ## Comparator laws and sortedness of the side maps -/

/-- The strict-weak-order facts about a side comparator that the `std::map`
operations rely on. -/
structure CmpLaws (cmp : Int → Int → Bool) : Prop where
  irrefl : ∀ a, cmp a a = false
  trans : ∀ a b c, cmp a b = true → cmp b c = true → cmp a c = true
  total : ∀ a b, a ≠ b → cmp a b = true ∨ cmp b a = true

theorem CmpLaws.ne_of_cmp {cmp} (L : CmpLaws cmp) {a b : Int}
    (h : cmp a b = true) : a ≠ b := by
  intro he
  subst he
  rw [L.irrefl a] at h
  exact Bool.false_ne_true h

theorem CmpLaws.asymm {cmp} (L : CmpLaws cmp) {a b : Int}
    (h : cmp a b = true) : cmp b a = false := by
  by_contra hc
  have hba : cmp b a = true := by
    cases hx : cmp b a
    · exact absurd hx hc
    · rfl
  have := L.trans a b a h hba
  rw [L.irrefl a] at this
  exact Bool.false_ne_true this

theorem bidCmp_laws : CmpLaws bidCmp := by
  refine ⟨?_, ?_, ?_⟩ <;> intros <;> simp_all [bidCmp] <;> omega

theorem askCmp_laws : CmpLaws askCmp := by
  refine ⟨?_, ?_, ?_⟩ <;> intros <;> simp_all [askCmp] <;> omega

theorem cmpOf_laws (b : Bool) : CmpLaws (cmpOf b) := by
  cases b
  · simpa [cmpOf] using askCmp_laws
  · simpa [cmpOf] using bidCmp_laws

/-- The side map is strictly sorted by the side's comparator (the `std::map`
representation invariant). -/
def SortedBy (cmp : Int → Int → Bool) (m : SideMap) : Prop :=
  m.Pairwise (fun a b => cmp a.1 b.1 = true)

theorem sortedBy_nil (cmp : Int → Int → Bool) : SortedBy cmp [] :=
  List.Pairwise.nil

/-! ## Lookup / insert / erase lemmas for the sorted side maps -/

theorem mapLookup_some_mem {p : Int} {m : SideMap} {v : PriceLevelData} :
    mapLookup p m = some v → (p, v) ∈ m := by
  induction m with
  | nil => intro h; simp [mapLookup] at h
  | cons e rest ih =>
    intro h
    by_cases he : e.1 = p
    · rw [mapLookup, if_pos he] at h
      cases h
      have he2 : (p, e.2) = e := by rw [← he]
      rw [he2]
      exact List.mem_cons_self e rest
    · rw [mapLookup, if_neg he] at h
      exact List.mem_cons_of_mem _ (ih h)

theorem mapLookup_eq_none_iff {p : Int} {m : SideMap} :
    mapLookup p m = none ↔ ∀ e ∈ m, e.1 ≠ p := by
  induction m with
  | nil => simp [mapLookup]
  | cons e rest ih =>
    by_cases he : e.1 = p
    · simp [mapLookup, he]
    · simp [mapLookup, he, ih]

theorem mem_mapInsert {cmp} {p : Int} {v : PriceLevelData} {m : SideMap}
    {e : Int × PriceLevelData} :
    e ∈ mapInsert cmp p v m → e = (p, v) ∨ e ∈ m := by
  induction m with
  | nil => intro h; simpa [mapInsert] using h
  | cons f rest ih =>
    intro h
    by_cases hf : f.1 = p
    · rw [mapInsert, if_pos hf] at h
      rcases List.mem_cons.1 h with h' | h'
      · exact Or.inl h'
      · exact Or.inr (List.mem_cons_of_mem _ h')
    · by_cases hc : cmp p f.1 = true
      · rw [mapInsert, if_neg hf, if_pos hc] at h
        rcases List.mem_cons.1 h with h' | h'
        · exact Or.inl h'
        · exact Or.inr h'
      · rw [mapInsert, if_neg hf, if_neg hc] at h
        rcases List.mem_cons.1 h with h' | h'
        · rw [h']
          exact Or.inr (List.mem_cons_self f rest)
        · rcases ih h' with h2 | h2
          · exact Or.inl h2
          · exact Or.inr (List.mem_cons_of_mem _ h2)

theorem mapLookup_mapInsert_self (cmp) (p : Int) (v : PriceLevelData) (m : SideMap) :
    mapLookup p (mapInsert cmp p v m) = some v := by
  induction m with
  | nil => simp [mapInsert, mapLookup]
  | cons e rest ih =>
    by_cases he : e.1 = p
    · simp [mapInsert, he, mapLookup]
    · by_cases hc : cmp p e.1 = true
      · simp [mapInsert, he, hc, mapLookup]
      · simp [mapInsert, he, hc, mapLookup, ih]

theorem mapLookup_mapInsert_ne (cmp) {q p : Int} (v : PriceLevelData) (m : SideMap)
    (h : q ≠ p) : mapLookup q (mapInsert cmp p v m) = mapLookup q m := by
  have hpq : ¬ p = q := fun hx => h hx.symm
  induction m with
  | nil => simp [mapInsert, mapLookup, hpq]
  | cons e rest ih =>
    by_cases he : e.1 = p
    · rw [mapInsert, if_pos he]
      simp [mapLookup, he, hpq]
    · by_cases hc : cmp p e.1 = true
      · rw [mapInsert, if_neg he, if_pos hc]
        simp [mapLookup, hpq]
      · rw [mapInsert, if_neg he, if_neg hc]
        by_cases hq : e.1 = q
        · simp [mapLookup, hq]
        · simp [mapLookup, hq, ih]

theorem sortedBy_mapInsert {cmp} (L : CmpLaws cmp) {m : SideMap}
    (p : Int) (v : PriceLevelData) :
    SortedBy cmp m → SortedBy cmp (mapInsert cmp p v m) := by
  induction m with
  | nil => intro _; simp [mapInsert, SortedBy]
  | cons e rest ih =>
    intro hs
    rw [SortedBy, List.pairwise_cons] at hs
    obtain ⟨hhead, hrest⟩ := hs
    by_cases he : e.1 = p
    · rw [mapInsert, if_pos he]
      rw [SortedBy, List.pairwise_cons]
      exact ⟨fun b hb => he ▸ hhead b hb, hrest⟩
    · by_cases hc : cmp p e.1 = true
      · rw [mapInsert, if_neg he, if_pos hc]
        rw [SortedBy, List.pairwise_cons]
        refine ⟨?_, List.pairwise_cons.2 ⟨hhead, hrest⟩⟩
        intro b hb
        rcases List.mem_cons.1 hb with hb | hb
        · rw [hb]; exact hc
        · exact L.trans _ _ _ hc (hhead b hb)
      · rw [mapInsert, if_neg he, if_neg hc]
        rw [SortedBy, List.pairwise_cons]
        refine ⟨?_, ih hrest⟩
        intro b hb
        rcases mem_mapInsert hb with hb' | hb'
        · rw [hb']
          rcases L.total e.1 p (fun hx => he hx) with h1 | h1
          · exact h1
          · exact absurd h1 (by simp [hc])
        · exact hhead b hb'

theorem mem_mapErase {p : Int} {m : SideMap} {e : Int × PriceLevelData} :
    e ∈ mapErase p m → e ∈ m := by
  induction m with
  | nil => intro h; simpa [mapErase] using h
  | cons f rest ih =>
    intro h
    by_cases hf : f.1 = p
    · rw [mapErase, if_pos hf] at h
      exact List.mem_cons_of_mem _ h
    · rw [mapErase, if_neg hf] at h
      rcases List.mem_cons.1 h with h' | h'
      · rw [h']
        exact List.mem_cons_self f rest
      · exact List.mem_cons_of_mem _ (ih h')

theorem sortedBy_mapErase {cmp} {m : SideMap} (p : Int) :
    SortedBy cmp m → SortedBy cmp (mapErase p m) := by
  induction m with
  | nil => intro hs; simpa [mapErase] using hs
  | cons e rest ih =>
    intro hs
    rw [SortedBy, List.pairwise_cons] at hs
    obtain ⟨hhead, hrest⟩ := hs
    by_cases he : e.1 = p
    · rw [mapErase, if_pos he]; exact hrest
    · rw [mapErase, if_neg he]
      rw [SortedBy, List.pairwise_cons]
      refine ⟨?_, ih hrest⟩
      intro b hb
      exact hhead b (mem_mapErase hb)

theorem mapLookup_mapErase_ne {q p : Int} (m : SideMap) (h : q ≠ p) :
    mapLookup q (mapErase p m) = mapLookup q m := by
  induction m with
  | nil => simp [mapErase]
  | cons e rest ih =>
    by_cases he : e.1 = p
    · rw [mapErase, if_pos he]
      have hne : ¬ e.1 = q := by rw [he]; exact fun hx => h hx.symm
      simp [mapLookup, hne]
    · rw [mapErase, if_neg he]
      by_cases hq : e.1 = q
      · simp [mapLookup, hq]
      · simp [mapLookup, hq, ih]

theorem mapLookup_mapErase_self {cmp} (L : CmpLaws cmp) {m : SideMap}
    (hs : SortedBy cmp m) (p : Int) : mapLookup p (mapErase p m) = none := by
  induction m with
  | nil => simp [mapErase, mapLookup]
  | cons e rest ih =>
    rw [SortedBy, List.pairwise_cons] at hs
    obtain ⟨hhead, hrest⟩ := hs
    by_cases he : e.1 = p
    · rw [mapErase, if_pos he]
      rw [mapLookup_eq_none_iff]
      intro f hf
      rw [← he]
      exact Ne.symm (L.ne_of_cmp (hhead f hf))
    · rw [mapErase, if_neg he]
      rw [mapLookup, if_neg he]
      exact ih hrest

theorem mem_mapErase_iff {cmp} (L : CmpLaws cmp) {m : SideMap}
    (hs : SortedBy cmp m) {p : Int} {v : PriceLevelData}
    (hl : mapLookup p m = some v) {e : Int × PriceLevelData} :
    e ∈ mapErase p m ↔ e ∈ m ∧ e.1 ≠ p := by
  induction m with
  | nil => simp [mapErase]
  | cons f rest ih =>
    rw [SortedBy, List.pairwise_cons] at hs
    obtain ⟨hhead, hrest⟩ := hs
    by_cases hf : f.1 = p
    · rw [mapErase, if_pos hf]
      constructor
      · intro h
        refine ⟨List.mem_cons_of_mem _ h, ?_⟩
        rw [← hf]
        exact Ne.symm (L.ne_of_cmp (hhead e h))
      · rintro ⟨h, hne⟩
        rcases List.mem_cons.1 h with h' | h'
        · exact absurd (h' ▸ hf) hne
        · exact h'
    · rw [mapLookup, if_neg hf] at hl
      rw [mapErase, if_neg hf]
      constructor
      · intro h
        rcases List.mem_cons.1 h with h' | h'
        · subst h'
          exact ⟨List.mem_cons_self e rest, hf⟩
        · rcases (ih hrest hl).1 h' with ⟨h1, h2⟩
          exact ⟨List.mem_cons_of_mem _ h1, h2⟩
      · rintro ⟨h, hne⟩
        rcases List.mem_cons.1 h with h' | h'
        · rw [h']
          exact List.mem_cons_self f (mapErase p rest)
        · exact List.mem_cons_of_mem _ ((ih hrest hl).2 ⟨h', hne⟩)

theorem mem_mapInsert_iff {cmp} (L : CmpLaws cmp) {m : SideMap}
    (hs : SortedBy cmp m) (p : Int) (v : PriceLevelData)
    {e : Int × PriceLevelData} :
    e ∈ mapInsert cmp p v m ↔ e = (p, v) ∨ (e ∈ m ∧ e.1 ≠ p) := by
  induction m with
  | nil => simp [mapInsert]
  | cons f rest ih =>
    rw [SortedBy, List.pairwise_cons] at hs
    obtain ⟨hhead, hrest⟩ := hs
    by_cases hf : f.1 = p
    · rw [mapInsert, if_pos hf]
      constructor
      · intro h
        rcases List.mem_cons.1 h with h' | h'
        · exact Or.inl h'
        · refine Or.inr ⟨List.mem_cons_of_mem _ h', ?_⟩
          rw [← hf]
          exact Ne.symm (L.ne_of_cmp (hhead e h'))
      · rintro (h | ⟨h, hne⟩)
        · rw [h]; exact List.mem_cons_self _ _
        · rcases List.mem_cons.1 h with h' | h'
          · exact absurd (h' ▸ hf) hne
          · exact List.mem_cons_of_mem _ h'
    · by_cases hc : cmp p f.1 = true
      · rw [mapInsert, if_neg hf, if_pos hc]
        have hkey : ∀ b, b ∈ f :: rest → b.1 ≠ p := by
          intro b hb
          rcases List.mem_cons.1 hb with h' | h'
          · rw [h']; exact fun hx => hf hx
          · exact fun hx => by
              have := L.trans p f.1 b.1 hc (hhead b h')
              exact L.ne_of_cmp this hx.symm
        constructor
        · intro h
          rcases List.mem_cons.1 h with h' | h'
          · exact Or.inl h'
          · exact Or.inr ⟨h', hkey e h'⟩
        · rintro (h | ⟨h, hne⟩)
          · rw [h]; exact List.mem_cons_self _ _
          · exact List.mem_cons_of_mem _ h
      · rw [mapInsert, if_neg hf, if_neg hc]
        constructor
        · intro h
          rcases List.mem_cons.1 h with h' | h'
          · exact Or.inr ⟨h' ▸ List.mem_cons_self f rest, h' ▸ hf⟩
          · rcases (ih hrest).1 h' with h2 | ⟨h2, h3⟩
            · exact Or.inl h2
            · exact Or.inr ⟨List.mem_cons_of_mem _ h2, h3⟩
        · rintro (h | ⟨h, hne⟩)
          · rw [h]
            exact List.mem_cons_of_mem _
              (mapLookup_some_mem (mapLookup_mapInsert_self cmp p v rest))
          · rcases List.mem_cons.1 h with h' | h'
            · rw [h']; exact List.mem_cons_self f (mapInsert cmp p v rest)
            · exact List.mem_cons_of_mem _ ((ih hrest).2 (Or.inr ⟨h', hne⟩))

theorem mapErase_mapInsert {cmp} {p : Int} {v : PriceLevelData} {m : SideMap}
    (h : mapLookup p m = none) : mapErase p (mapInsert cmp p v m) = m := by
  induction m with
  | nil => simp [mapInsert, mapErase]
  | cons e rest ih =>
    rw [mapLookup] at h
    by_cases he : e.1 = p
    · rw [if_pos he] at h
      cases h
    · rw [if_neg he] at h
      by_cases hc : cmp p e.1 = true
      · rw [mapInsert, if_neg he, if_pos hc]
        rw [mapErase, if_pos rfl]
      · rw [mapInsert, if_neg he, if_neg hc]
        rw [mapErase, if_neg he, ih h]

theorem mapInsert_self {cmp} (L : CmpLaws cmp) {p : Int} {v : PriceLevelData}
    {m : SideMap} (hs : SortedBy cmp m) (h : mapLookup p m = some v) :
    mapInsert cmp p v m = m := by
  induction m with
  | nil => simp [mapLookup] at h
  | cons e rest ih =>
    rw [SortedBy, List.pairwise_cons] at hs
    obtain ⟨hhead, hrest⟩ := hs
    by_cases he : e.1 = p
    · rw [mapLookup, if_pos he] at h
      cases h
      rw [mapInsert, if_pos he, ← he]
    · rw [mapLookup, if_neg he] at h
      have hmem : (p, v) ∈ rest := mapLookup_some_mem h
      have hcmp : cmp e.1 p = true := hhead (p, v) hmem
      have hnc : ¬ cmp p e.1 = true := by
        rw [L.asymm hcmp]
        exact Bool.false_ne_true
      rw [mapInsert, if_neg he, if_neg hnc, ih hrest h]

theorem mapInsert_mapInsert {cmp} (p : Int) (v w : PriceLevelData) (m : SideMap) :
    mapInsert cmp p v (mapInsert cmp p w m) = mapInsert cmp p v m := by
  induction m with
  | nil => simp [mapInsert]
  | cons e rest ih =>
    by_cases he : e.1 = p
    · rw [mapInsert, if_pos he, mapInsert, if_pos rfl, mapInsert, if_pos he]
    · by_cases hc : cmp p e.1 = true
      · rw [mapInsert, if_neg he, if_pos hc, mapInsert, if_pos rfl,
          mapInsert, if_neg he, if_pos hc]
      · rw [mapInsert, if_neg he, if_neg hc, mapInsert, if_neg he, if_neg hc,
          mapInsert, if_neg he, if_neg hc, ih]

/-! ## Chain sums -/

/-- The quantity of the record in slot `n` (0 for a free slot, which never
occurs for a chained record in a well-formed book). -/
def nodeQty (nodes : NodeId → Option Order) (n : NodeId) : Nat :=
  (nodes n).elim 0 Order.quantity

/-- The exact (unbounded) sum of the quantities of the records of a chain. -/
def chainSum (nodes : NodeId → Option Order) (c : List NodeId) : Nat :=
  (c.map (nodeQty nodes)).sum

theorem chainSum_append (nodes : NodeId → Option Order) (c1 c2 : List NodeId) :
    chainSum nodes (c1 ++ c2) = chainSum nodes c1 + chainSum nodes c2 := by
  simp [chainSum]

theorem chainSum_congr {f g : NodeId → Option Order} {c : List NodeId}
    (h : ∀ n ∈ c, f n = g n) : chainSum f c = chainSum g c := by
  induction c with
  | nil => rfl
  | cons a rest ih =>
    simp only [chainSum, List.map_cons, List.sum_cons] at *
    rw [nodeQty, nodeQty, h a (List.mem_cons_self a rest),
      ih (fun n hn => h n (List.mem_cons_of_mem _ hn))]

theorem mem_filter_ne {c : List NodeId} {x nid : NodeId} :
    x ∈ c.filter (fun y => decide (y ≠ nid)) ↔ x ∈ c ∧ x ≠ nid := by
  simp [List.mem_filter]

theorem filter_ne_of_not_mem {c : List NodeId} {nid : NodeId} (h : nid ∉ c) :
    c.filter (fun y => decide (y ≠ nid)) = c := by
  apply List.filter_eq_self.2
  intro a ha
  simp only [decide_eq_true_eq]
  exact fun hx => h (hx ▸ ha)

theorem chainSum_filter_ne (nodes : NodeId → Option Order) {c : List NodeId}
    {nid : NodeId} (hnd : c.Nodup) (hmem : nid ∈ c) :
    chainSum nodes c
      = nodeQty nodes nid + chainSum nodes (c.filter (fun y => decide (y ≠ nid))) := by
  induction c with
  | nil => cases hmem
  | cons a rest ih =>
    rcases List.nodup_cons.1 hnd with ⟨hna, hrest⟩
    by_cases ha : a = nid
    · subst ha
      rw [List.filter_cons_of_neg (by simp)]
      rw [filter_ne_of_not_mem hna]
      simp [chainSum]
    · rcases List.mem_cons.1 hmem with h' | h'
      · exact absurd h'.symm ha
      · rw [List.filter_cons_of_pos (by simp [ha])]
        simp only [chainSum, List.map_cons, List.sum_cons] at *
        rw [ih hrest h']
        omega

theorem filter_ne_nil_iff {c : List NodeId} {nid : NodeId} (hnd : c.Nodup)
    (hmem : nid ∈ c) :
    c.filter (fun y => decide (y ≠ nid)) = [] ↔ c = [nid] := by
  constructor
  · intro h
    have hall : ∀ x ∈ c, x = nid := by
      intro x hx
      have := List.filter_eq_nil_iff.1 h x hx
      simpa using this
    cases c with
    | nil => cases hmem
    | cons a rest =>
      have ha : a = nid := hall a (List.mem_cons_self a rest)
      subst ha
      rcases List.nodup_cons.1 hnd with ⟨hna, _⟩
      cases rest with
      | nil => rfl
      | cons b rest2 =>
        have hb : b = a := hall b (List.mem_cons_of_mem _ (List.mem_cons_self b rest2))
        exact absurd (hb ▸ List.mem_cons_self b rest2) hna
  · intro h
    subst h
    simp

theorem filter_ne_eq_erase {nid : NodeId} {c : List NodeId} (h : c.Nodup) :
    c.filter (fun y => decide (y ≠ nid)) = c.erase nid := by
  induction c with
  | nil => rfl
  | cons a rest ih =>
    rcases List.nodup_cons.1 h with ⟨hna, hrest⟩
    by_cases ha : a = nid
    · subst ha
      rw [List.erase_cons_head]
      rw [List.filter_cons_of_neg (by simp)]
      exact filter_ne_of_not_mem hna
    · rw [List.filter_cons_of_pos (by simp [ha]), List.erase_cons_tail, ih hrest]
      simp [ha]

/-! ## Projections of the operations -/

theorem sideOf_setSide_self (s : State) (b : Bool) (m : SideMap) :
    sideOf (setSide s b m) b = m := by
  cases b <;> simp [sideOf, setSide]

theorem sideOf_setSide_ne (s : State) {b c : Bool} (m : SideMap) (h : c ≠ b) :
    sideOf (setSide s b m) c = sideOf s c := by
  cases b <;> cases c <;> simp_all [sideOf, setSide]

theorem add_order_nodes (s : State) (o : Order) :
    (add_order s o).nodes = fun n => if n = s.next_node then some o else s.nodes n :=
  rfl

theorem add_order_order_lookup (s : State) (o : Order) :
    (add_order s o).order_lookup
      = fun i => if i = o.order_id then some s.next_node else s.order_lookup i :=
  rfl

theorem add_order_next_node (s : State) (o : Order) :
    (add_order s o).next_node = s.next_node + 1 :=
  rfl

theorem sideOf_add_order (s : State) (o : Order) (c : Bool) :
    sideOf (add_order s o) c
      = if c = o.is_buy then
          appendToLevel (cmpOf o.is_buy) (sideOf s o.is_buy) o.price s.next_node
            o.quantity
        else sideOf s c := by
  cases hb : o.is_buy <;> cases c <;> simp [add_order, sideOf, setSide, hb]

/-! ## The well-formedness invariant of a book state -/

/-- What the book guarantees of each stored price level: a nonempty,
duplicate-free chain of live records whose side and price agree with the
level, with the stored aggregate equal to the chain's quantity sum reduced
modulo `2 ^ 64`. -/
structure LevelWf (nodes : NodeId → Option Order) (isBuy : Bool)
    (p : Int) (lvl : PriceLevelData) : Prop where
  nonempty : lvl.chain ≠ []
  total_eq : lvl.total_quantity = chainSum nodes lvl.chain % w64
  nodup : lvl.chain.Nodup
  members : ∀ n ∈ lvl.chain, ∃ o, nodes n = some o ∧ o.is_buy = isBuy ∧
      o.price = p ∧ o.quantity < w64

/-- The reachable-state invariant of the book: sorted sides, well-formed
levels, each record chained into at most one level, an index that resolves
to a matching live record and level, injectively, and an allocation counter
above every live slot. -/
structure Wf (s : State) : Prop where
  sorted : ∀ b, SortedBy (cmpOf b) (sideOf s b)
  level_wf : ∀ b, ∀ e ∈ sideOf s b, LevelWf s.nodes b e.1 e.2
  disj : ∀ b₁ p₁ l₁ b₂ p₂ l₂ n, mapLookup p₁ (sideOf s b₁) = some l₁ →
      mapLookup p₂ (sideOf s b₂) = some l₂ → n ∈ l₁.chain → n ∈ l₂.chain →
      b₁ = b₂ ∧ p₁ = p₂
  index_wf : ∀ i n, s.order_lookup i = some n → ∃ o lvl, s.nodes n = some o ∧
      o.order_id = i ∧ mapLookup o.price (sideOf s o.is_buy) = some lvl ∧
      n ∈ lvl.chain
  index_inj : ∀ i₁ i₂ n, s.order_lookup i₁ = some n →
      s.order_lookup i₂ = some n → i₁ = i₂
  fresh : ∀ n o, s.nodes n = some o → n < s.next_node

theorem sideOf_emptyBook (b : Bool) : sideOf emptyBook b = [] := by
  cases b <;> rfl

theorem Wf_empty : Wf emptyBook := by
  constructor
  · intro b; rw [sideOf_emptyBook]; exact sortedBy_nil _
  · intro b e he; rw [sideOf_emptyBook] at he; cases he
  · intro b₁ p₁ l₁ b₂ p₂ l₂ n h1 h2 h3 h4
    rw [sideOf_emptyBook] at h1
    simp [mapLookup] at h1
  · intro i n h; simp [emptyBook] at h
  · intro i₁ i₂ n h1 h2; simp [emptyBook] at h1
  · intro n o h; simp [emptyBook] at h

theorem LevelWf_congr {f g : NodeId → Option Order} {b : Bool} {p : Int}
    {lvl : PriceLevelData} (h : ∀ n ∈ lvl.chain, f n = g n)
    (hw : LevelWf g b p lvl) : LevelWf f b p lvl := by
  refine ⟨hw.nonempty, ?_, hw.nodup, ?_⟩
  · rw [hw.total_eq, chainSum_congr h]
  · intro n hn
    obtain ⟨o, ho, h1, h2, h3⟩ := hw.members n hn
    exact ⟨o, (h n hn).trans ho, h1, h2, h3⟩

theorem Wf.chain_mem_lt {s : State} (W : Wf s) {b : Bool} {p : Int}
    {lvl : PriceLevelData} (hm : mapLookup p (sideOf s b) = some lvl) {n : NodeId}
    (hn : n ∈ lvl.chain) : n < s.next_node := by
  obtain ⟨o, ho, -, -, -⟩ :=
    (W.level_wf b (p, lvl) (mapLookup_some_mem hm)).members n hn
  exact W.fresh n o ho

theorem Wf.nodes_next_node {s : State} (W : Wf s) : s.nodes s.next_node = none := by
  cases h : s.nodes s.next_node with
  | none => rfl
  | some o => exact absurd (W.fresh _ o h) (lt_irrefl _)

theorem mem_mapLookup {cmp} (L : CmpLaws cmp) {m : SideMap} (hs : SortedBy cmp m)
    {e : Int × PriceLevelData} (h : e ∈ m) : mapLookup e.1 m = some e.2 := by
  induction m with
  | nil => cases h
  | cons f rest ih =>
    rw [SortedBy, List.pairwise_cons] at hs
    obtain ⟨hhead, hrest⟩ := hs
    rcases List.mem_cons.1 h with h' | h'
    · subst h'
      rw [mapLookup, if_pos rfl]
    · have hne : f.1 ≠ e.1 := L.ne_of_cmp (hhead e h')
      rw [mapLookup, if_neg hne]
      exact ih hrest h'

theorem Wf.mem_chain_lt {s : State} (W : Wf s) {b : Bool}
    {e : Int × PriceLevelData} (he : e ∈ sideOf s b) {n : NodeId}
    (hn : n ∈ e.2.chain) : n < s.next_node :=
  W.chain_mem_lt (mem_mapLookup (cmpOf_laws b) (W.sorted b) he) hn

/-- The level produced by `appendToLevel` for a fresh record is well formed
in the post-`add` node store. -/
theorem LevelWf_append {s : State} (W : Wf s) {o : Order} (hq : o.quantity < w64) :
    LevelWf (fun n => if n = s.next_node then some o else s.nodes n) o.is_buy o.price
      ⟨add64 ((mapLookup o.price (sideOf s o.is_buy)).getD ⟨0, []⟩).total_quantity
         o.quantity,
       ((mapLookup o.price (sideOf s o.is_buy)).getD ⟨0, []⟩).chain
         ++ [s.next_node]⟩ := by
  have hlvl0 :
      ((mapLookup o.price (sideOf s o.is_buy)).getD ⟨0, []⟩).total_quantity
        = chainSum s.nodes
            ((mapLookup o.price (sideOf s o.is_buy)).getD ⟨0, []⟩).chain % w64
      ∧ ((mapLookup o.price (sideOf s o.is_buy)).getD ⟨0, []⟩).chain.Nodup
      ∧ (∀ n ∈ ((mapLookup o.price (sideOf s o.is_buy)).getD ⟨0, []⟩).chain,
          ∃ o', s.nodes n = some o' ∧ o'.is_buy = o.is_buy ∧ o'.price = o.price
            ∧ o'.quantity < w64)
      ∧ s.next_node ∉ ((mapLookup o.price (sideOf s o.is_buy)).getD ⟨0, []⟩).chain := by
    cases hm : mapLookup o.price (sideOf s o.is_buy) with
    | none => simp [chainSum]
    | some lvl =>
      have hw := W.level_wf o.is_buy (o.price, lvl) (mapLookup_some_mem hm)
      refine ⟨hw.total_eq, hw.nodup, hw.members, ?_⟩
      intro hmem
      exact absurd (W.chain_mem_lt hm hmem) (lt_irrefl _)
  obtain ⟨hl0tot, hl0nd, hl0mem, hl0fresh⟩ := hlvl0
  have hcongr : ∀ n ∈ ((mapLookup o.price (sideOf s o.is_buy)).getD ⟨0, []⟩).chain,
      (fun n => if n = s.next_node then some o else s.nodes n) n = s.nodes n := by
    intro n hn
    have : n ≠ s.next_node := fun hx => hl0fresh (hx ▸ hn)
    simp [this]
  refine ⟨by simp, ?_, ?_, ?_⟩
  · show add64 _ o.quantity = chainSum _ (_ ++ [s.next_node]) % w64
    rw [chainSum_append, chainSum_congr hcongr]
    have hone : chainSum (fun n => if n = s.next_node then some o else s.nodes n)
        [s.next_node] = o.quantity := by
      simp [chainSum, nodeQty]
    rw [hone, hl0tot, add64_mod_left]
  · show (_ ++ [s.next_node]).Nodup
    refine List.Nodup.append hl0nd (List.nodup_singleton _) ?_
    intro x hx hmem
    rw [List.mem_singleton] at hmem
    exact hl0fresh (hmem ▸ hx)
  · intro n hn
    rcases List.mem_append.1 hn with h' | h'
    · obtain ⟨o', ho', h1, h2, h3⟩ := hl0mem n h'
      exact ⟨o', (hcongr n h').trans ho', h1, h2, h3⟩
    · rw [List.mem_singleton] at h'
      subst h'
      exact ⟨o, by simp, rfl, rfl, hq⟩

/-- `add_order` preserves the book invariant (for a `uint64`-representable
quantity; no other precondition is needed for well-formedness alone). -/
theorem Wf_add {s : State} (W : Wf s) {o : Order} (hq : o.quantity < w64) :
    Wf (add_order s o) := by
  have Hnew : mapLookup o.price (sideOf (add_order s o) o.is_buy)
      = some
        ⟨add64 ((mapLookup o.price (sideOf s o.is_buy)).getD ⟨0, []⟩).total_quantity
           o.quantity,
         ((mapLookup o.price (sideOf s o.is_buy)).getD ⟨0, []⟩).chain
           ++ [s.next_node]⟩ := by
    rw [sideOf_add_order, if_pos rfl]
    simp only [appendToLevel]
    exact mapLookup_mapInsert_self _ _ _ _
  have Hold : ∀ (c : Bool) (p' : Int), (c = o.is_buy → p' ≠ o.price) →
      mapLookup p' (sideOf (add_order s o) c) = mapLookup p' (sideOf s c) := by
    intro c p' hcp
    rw [sideOf_add_order]
    by_cases hc : c = o.is_buy
    · rw [if_pos hc, hc]
      simp only [appendToLevel]
      exact mapLookup_mapInsert_ne _ _ _ (hcp hc)
    · rw [if_neg hc]
  have Hchain : ∀ (c : Bool) (p' : Int) (l' : PriceLevelData),
      mapLookup p' (sideOf (add_order s o) c) = some l' → ∀ n ∈ l'.chain,
        (n = s.next_node ∧ c = o.is_buy ∧ p' = o.price) ∨
        (∃ l₀, mapLookup p' (sideOf s c) = some l₀ ∧ n ∈ l₀.chain) := by
    intro c p' l' hm n hn
    by_cases hcp : c = o.is_buy ∧ p' = o.price
    · obtain ⟨hc, hp⟩ := hcp
      subst hc
      subst hp
      rw [Hnew, Option.some.injEq] at hm
      subst hm
      rcases List.mem_append.1 hn with h' | h'
      · right
        cases hm0 : mapLookup o.price (sideOf s o.is_buy) with
        | none =>
          rw [hm0] at h'
          simp at h'
        | some l0 =>
          rw [hm0] at h'
          exact ⟨l0, rfl, h'⟩
      · left
        rw [List.mem_singleton] at h'
        exact ⟨h', rfl, rfl⟩
    · have hne : c = o.is_buy → p' ≠ o.price := fun hc hp => hcp ⟨hc, hp⟩
      rw [Hold c p' hne] at hm
      exact Or.inr ⟨l', hm, hn⟩
  constructor
  · intro c
    rw [sideOf_add_order]
    by_cases hc : c = o.is_buy
    · rw [if_pos hc, hc]
      simp only [appendToLevel]
      exact sortedBy_mapInsert (cmpOf_laws _) _ _ (W.sorted _)
    · rw [if_neg hc]
      exact W.sorted c
  · intro c e he
    rw [add_order_nodes]
    by_cases hc : c = o.is_buy
    · subst hc
      rw [sideOf_add_order, if_pos rfl] at he
      simp only [appendToLevel] at he
      rcases (mem_mapInsert_iff (cmpOf_laws _) (W.sorted _) _ _).1 he with h' | ⟨h', hp'⟩
      · rw [h']
        exact LevelWf_append W hq
      · refine LevelWf_congr ?_ (W.level_wf _ e h')
        intro n hn
        have : n ≠ s.next_node := Nat.ne_of_lt (W.mem_chain_lt h' hn)
        simp [this]
    · rw [sideOf_add_order, if_neg hc] at he
      refine LevelWf_congr ?_ (W.level_wf _ e he)
      intro n hn
      have : n ≠ s.next_node := Nat.ne_of_lt (W.mem_chain_lt he hn)
      simp [this]
  · intro b₁ p₁ l₁ b₂ p₂ l₂ n h1 h2 hn1 hn2
    rcases Hchain b₁ p₁ l₁ h1 n hn1 with ⟨he1, hb1, hp1⟩ | ⟨l₀, hl₀, hm₀⟩
    · rcases Hchain b₂ p₂ l₂ h2 n hn2 with ⟨he2, hb2, hp2⟩ | ⟨l₀2, hl₀2, hm₀2⟩
      · exact ⟨hb1.trans hb2.symm, hp1.trans hp2.symm⟩
      · exact absurd (W.chain_mem_lt hl₀2 hm₀2) (by rw [he1]; exact lt_irrefl _)
    · rcases Hchain b₂ p₂ l₂ h2 n hn2 with ⟨he2, hb2, hp2⟩ | ⟨l₀2, hl₀2, hm₀2⟩
      · exact absurd (W.chain_mem_lt hl₀ hm₀) (by rw [he2]; exact lt_irrefl _)
      · exact W.disj _ _ _ _ _ _ n hl₀ hl₀2 hm₀ hm₀2
  · intro i n hi
    simp only [add_order_order_lookup] at hi
    by_cases hio : i = o.order_id
    · rw [if_pos hio, Option.some.injEq] at hi
      subst hi
      exact ⟨o, _, by simp [add_order_nodes], hio.symm, Hnew,
        List.mem_append_right _ (List.mem_singleton.2 rfl)⟩
    · rw [if_neg hio] at hi
      obtain ⟨o', lvl₂, ho', hid, hlv, hmem⟩ := W.index_wf i n hi
      have hnn : n ≠ s.next_node := Nat.ne_of_lt (W.fresh n o' ho')
      have hlev : ∃ lvl', mapLookup o'.price (sideOf (add_order s o) o'.is_buy)
          = some lvl' ∧ n ∈ lvl'.chain := by
        by_cases hcp : o'.is_buy = o.is_buy ∧ o'.price = o.price
        · obtain ⟨hb', hp'⟩ := hcp
          rw [hb', hp', Hnew]
          refine ⟨_, rfl, ?_⟩
          have hgetD : (mapLookup o.price (sideOf s o.is_buy)).getD ⟨0, []⟩ = lvl₂ := by
            rw [← hb', ← hp', hlv]
            rfl
          rw [hgetD]
          exact List.mem_append_left _ hmem
        · have hne : o'.is_buy = o.is_buy → o'.price ≠ o.price :=
            fun hc hp => hcp ⟨hc, hp⟩
          rw [Hold _ _ hne]
          exact ⟨lvl₂, hlv, hmem⟩
      obtain ⟨lvl', hl1, hl2⟩ := hlev
      exact ⟨o', lvl', by simp [add_order_nodes, hnn, ho'], hid, hl1, hl2⟩
  · intro i₁ i₂ n h1 h2
    simp only [add_order_order_lookup] at h1 h2
    by_cases hi1 : i₁ = o.order_id <;> by_cases hi2 : i₂ = o.order_id
    · rw [hi1, hi2]
    · rw [if_pos hi1, Option.some.injEq] at h1
      rw [if_neg hi2] at h2
      subst h1
      obtain ⟨o', lvl₂, ho', -⟩ := W.index_wf i₂ _ h2
      exact absurd (W.fresh _ _ ho') (lt_irrefl _)
    · rw [if_neg hi1] at h1
      rw [if_pos hi2, Option.some.injEq] at h2
      subst h2
      obtain ⟨o', lvl₂, ho', -⟩ := W.index_wf i₁ _ h1
      exact absurd (W.fresh _ _ ho') (lt_irrefl _)
    · rw [if_neg hi1] at h1
      rw [if_neg hi2] at h2
      exact W.index_inj i₁ i₂ n h1 h2
  · intro n o' h
    simp only [add_order_nodes] at h
    rw [add_order_next_node]
    by_cases hn : n = s.next_node
    · subst hn
      exact Nat.lt_succ_self _
    · rw [if_neg hn] at h
      exact Nat.lt_succ_of_lt (W.fresh n o' h)

/-! ## Equations and surgery facts for `cancel_order` -/

theorem mk_setSide_nodes (s : State) (b : Bool) (m : SideMap)
    (f : NodeId → Option Order) (g : Nat → Option NodeId) :
    ({ setSide s b m with nodes := f, order_lookup := g } : State).nodes = f := by
  cases b <;> rfl

theorem mk_setSide_order_lookup (s : State) (b : Bool) (m : SideMap)
    (f : NodeId → Option Order) (g : Nat → Option NodeId) :
    ({ setSide s b m with nodes := f, order_lookup := g } : State).order_lookup = g := by
  cases b <;> rfl

theorem mk_setSide_next_node (s : State) (b : Bool) (m : SideMap)
    (f : NodeId → Option Order) (g : Nat → Option NodeId) :
    ({ setSide s b m with nodes := f, order_lookup := g } : State).next_node
      = s.next_node := by
  cases b <;> rfl

theorem sideOf_mk_setSide (s : State) (b : Bool) (m : SideMap)
    (f : NodeId → Option Order) (g : Nat → Option NodeId) (c : Bool) :
    sideOf ({ setSide s b m with nodes := f, order_lookup := g } : State) c
      = if c = b then m else sideOf s c := by
  cases b <;> cases c <;> simp [sideOf, setSide]

theorem setSide_nodes (s : State) (b : Bool) (m : SideMap) :
    (setSide s b m).nodes = s.nodes := by
  cases b <;> rfl

theorem setSide_order_lookup (s : State) (b : Bool) (m : SideMap) :
    (setSide s b m).order_lookup = s.order_lookup := by
  cases b <;> rfl

theorem setSide_next_node (s : State) (b : Bool) (m : SideMap) :
    (setSide s b m).next_node = s.next_node := by
  cases b <;> rfl

theorem mk_setSide_nodes2 (s : State) (b : Bool) (m : SideMap)
    (f : NodeId → Option Order) :
    ({ setSide s b m with nodes := f } : State).nodes = f := by
  cases b <;> rfl

theorem mk_setSide_order_lookup2 (s : State) (b : Bool) (m : SideMap)
    (f : NodeId → Option Order) :
    ({ setSide s b m with nodes := f } : State).order_lookup = s.order_lookup := by
  cases b <;> rfl

theorem mk_setSide_next_node2 (s : State) (b : Bool) (m : SideMap)
    (f : NodeId → Option Order) :
    ({ setSide s b m with nodes := f } : State).next_node = s.next_node := by
  cases b <;> rfl

theorem sideOf_mk_setSide2 (s : State) (b : Bool) (m : SideMap)
    (f : NodeId → Option Order) (c : Bool) :
    sideOf ({ setSide s b m with nodes := f } : State) c
      = if c = b then m else sideOf s c := by
  cases b <;> cases c <;> simp [sideOf, setSide]

theorem cancel_order_none {s : State} {order_id : Nat}
    (h : s.order_lookup order_id = none) : cancel_order s order_id = (false, s) := by
  simp only [cancel_order, h]

theorem cancel_order_none_node {s : State} {order_id : Nat} {nid : NodeId}
    (h1 : s.order_lookup order_id = some nid) (h2 : s.nodes nid = none) :
    cancel_order s order_id = (false, s) := by
  simp only [cancel_order, h1, h2]

theorem cancel_order_no_level {s : State} {order_id : Nat} {nid : NodeId} {nd : Order}
    (h1 : s.order_lookup order_id = some nid) (h2 : s.nodes nid = some nd)
    (h3 : removeFromLevel (cmpOf nd.is_buy) (sideOf s nd.is_buy) nd.price nid
        nd.quantity = none) :
    cancel_order s order_id = (false, s) := by
  simp only [cancel_order, h1, h2, h3]

theorem cancel_order_some {s : State} {order_id : Nat} {nid : NodeId} {nd : Order}
    {m' : SideMap} (h1 : s.order_lookup order_id = some nid)
    (h2 : s.nodes nid = some nd)
    (h3 : removeFromLevel (cmpOf nd.is_buy) (sideOf s nd.is_buy) nd.price nid
        nd.quantity = some m') :
    cancel_order s order_id
      = (true,
         { setSide s nd.is_buy m' with
           nodes := fun n => if n = nid then none else s.nodes n,
           order_lookup := fun i => if i = order_id then none else s.order_lookup i }) := by
  simp only [cancel_order, h1, h2, h3]

theorem removeFromLevel_eq {cmp} {m : SideMap} {p : Int} {lvl : PriceLevelData}
    (hm : mapLookup p m = some lvl) (nid : NodeId) (q : Nat) :
    removeFromLevel cmp m p nid q
      = some (if lvl.chain.filter (fun y => decide (y ≠ nid)) = [] then mapErase p m
              else mapInsert cmp p
                ⟨sub64 lvl.total_quantity q,
                 lvl.chain.filter (fun y => decide (y ≠ nid))⟩ m) := by
  simp only [removeFromLevel, hm]

/-- What the unlink step does to the side map, as seen through lookups and
entry provenance. -/
theorem removeFromLevel_spec {cmp} (L : CmpLaws cmp) {m : SideMap}
    (hs : SortedBy cmp m) {p : Int} {lvl : PriceLevelData}
    (hm : mapLookup p m = some lvl) (nid : NodeId) (q : Nat) :
    ∃ m', removeFromLevel cmp m p nid q = some m'
      ∧ SortedBy cmp m'
      ∧ (∀ p₂, p₂ ≠ p → mapLookup p₂ m' = mapLookup p₂ m)
      ∧ (lvl.chain.filter (fun y => decide (y ≠ nid)) = [] → mapLookup p m' = none)
      ∧ (lvl.chain.filter (fun y => decide (y ≠ nid)) ≠ [] →
          mapLookup p m' = some ⟨sub64 lvl.total_quantity q,
            lvl.chain.filter (fun y => decide (y ≠ nid))⟩)
      ∧ (∀ e ∈ m', (e ∈ m ∧ e.1 ≠ p)
          ∨ (e = (p, ⟨sub64 lvl.total_quantity q,
               lvl.chain.filter (fun y => decide (y ≠ nid))⟩)
             ∧ lvl.chain.filter (fun y => decide (y ≠ nid)) ≠ [])) := by
  refine ⟨_, removeFromLevel_eq hm nid q, ?_, ?_, ?_, ?_, ?_⟩
  · by_cases hc : lvl.chain.filter (fun y => decide (y ≠ nid)) = []
    · rw [if_pos hc]
      exact sortedBy_mapErase p hs
    · rw [if_neg hc]
      exact sortedBy_mapInsert L _ _ hs
  · intro p₂ hp₂
    by_cases hc : lvl.chain.filter (fun y => decide (y ≠ nid)) = []
    · rw [if_pos hc]
      exact mapLookup_mapErase_ne m hp₂
    · rw [if_neg hc]
      exact mapLookup_mapInsert_ne cmp _ m hp₂
  · intro hc
    rw [if_pos hc]
    exact mapLookup_mapErase_self L hs p
  · intro hc
    rw [if_neg hc]
    exact mapLookup_mapInsert_self cmp p _ m
  · intro e he
    by_cases hc : lvl.chain.filter (fun y => decide (y ≠ nid)) = []
    · rw [if_pos hc] at he
      exact Or.inl ((mem_mapErase_iff L hs hm).1 he)
    · rw [if_neg hc] at he
      rcases (mem_mapInsert_iff L hs _ _).1 he with h' | h'
      · exact Or.inr ⟨h', hc⟩
      · exact Or.inl h'

/-- `cancel_order` preserves the book invariant (unconditionally: a failed
cancel leaves the state untouched). -/
theorem Wf_cancel {s : State} (W : Wf s) (order_id : Nat) :
    Wf ((cancel_order s order_id).2) := by
  cases hl : s.order_lookup order_id with
  | none =>
    rw [cancel_order_none hl]
    exact W
  | some nid =>
    cases hn : s.nodes nid with
    | none =>
      rw [cancel_order_none_node hl hn]
      exact W
    | some nd =>
      obtain ⟨o, lvl, ho, hid, hlv, hmem⟩ := W.index_wf _ _ hl
      rw [hn, Option.some.injEq] at ho
      subst ho
      have hw := W.level_wf nd.is_buy (nd.price, lvl) (mapLookup_some_mem hlv)
      have hqlt : nd.quantity < w64 := by
        obtain ⟨o2, ho2, -, -, hq2⟩ := hw.members nid hmem
        rw [hn, Option.some.injEq] at ho2
        rw [ho2]
        exact hq2
      obtain ⟨m', hrm, HS, Hne, Hnone, Hsome, HE⟩ :=
        removeFromLevel_spec (cmpOf_laws nd.is_buy) (W.sorted nd.is_buy) hlv nid
          nd.quantity
      rw [cancel_order_some hl hn hrm]
      have hnid_only : ∀ (c : Bool) (p₂ : Int) (l₂ : PriceLevelData),
          mapLookup p₂ (sideOf s c) = some l₂ → nid ∈ l₂.chain →
          c = nd.is_buy ∧ p₂ = nd.price := by
        intro c p₂ l₂ h1 h2
        exact W.disj c p₂ l₂ nd.is_buy nd.price lvl nid h1 hlv h2 hmem
      have hcong : ∀ (c : Bool) (e : Int × PriceLevelData), e ∈ sideOf s c →
          ¬(c = nd.is_buy ∧ e.1 = nd.price) →
          ∀ n ∈ e.2.chain,
            (fun n => if n = nid then none else s.nodes n) n = s.nodes n := by
        intro c e he hne n hnm
        have hnn : n ≠ nid := by
          intro hx
          subst hx
          exact hne
            (hnid_only c e.1 e.2 (mem_mapLookup (cmpOf_laws c) (W.sorted c) he) hnm)
        simp [hnn]
      constructor
      · intro c
        rw [sideOf_mk_setSide]
        by_cases hcb : c = nd.is_buy
        · rw [if_pos hcb, hcb]
          exact HS
        · rw [if_neg hcb]
          exact W.sorted c
      · intro c e he
        rw [sideOf_mk_setSide] at he
        rw [mk_setSide_nodes]
        by_cases hcb : c = nd.is_buy
        · rw [if_pos hcb] at he
          subst hcb
          rcases HE e he with ⟨hin, hnep⟩ | ⟨heq, hcf⟩
          · exact LevelWf_congr (hcong _ e hin (fun hx => hnep hx.2))
              (W.level_wf _ e hin)
          · rw [heq]
            have hSsplit := chainSum_filter_ne s.nodes hw.nodup hmem
            have hq_eq : nodeQty s.nodes nid = nd.quantity := by
              rw [nodeQty, hn]
              rfl
            have hcongF : ∀ n ∈ lvl.chain.filter (fun y => decide (y ≠ nid)),
                (fun n => if n = nid then none else s.nodes n) n = s.nodes n := by
              intro n hnf
              have hne2 := (mem_filter_ne.1 hnf).2
              simp [hne2]
            refine ⟨hcf, ?_, List.Nodup.filter _ hw.nodup, ?_⟩
            · have htot : sub64 lvl.total_quantity nd.quantity
                  = chainSum s.nodes
                      (lvl.chain.filter (fun y => decide (y ≠ nid))) % w64 := by
                rw [hw.total_eq, hSsplit, hq_eq, sub64_add_left hqlt]
              rw [htot, chainSum_congr hcongF]
            · intro n hnf
              obtain ⟨hin, hne2⟩ := mem_filter_ne.1 hnf
              obtain ⟨o2, ho2, hb2, hp2, hq2⟩ := hw.members n hin
              exact ⟨o2, by simp [hne2, ho2], hb2, hp2, hq2⟩
        · rw [if_neg hcb] at he
          exact LevelWf_congr (hcong c e he (fun hx => hcb hx.1)) (W.level_wf c e he)
      · intro b₁ p₁ l₁ b₂ p₂ l₂ n h1 h2 hn1 hn2
        rw [sideOf_mk_setSide] at h1 h2
        have key : ∀ (c : Bool) (p₃ : Int) (l₃ : PriceLevelData) (n₃ : NodeId),
            mapLookup p₃ (if c = nd.is_buy then m' else sideOf s c) = some l₃ →
            n₃ ∈ l₃.chain →
            ∃ l₀, mapLookup p₃ (sideOf s c) = some l₀ ∧ n₃ ∈ l₀.chain := by
          intro c p₃ l₃ n₃ hlk hmem₃
          by_cases hcb : c = nd.is_buy
          · rw [if_pos hcb] at hlk
            by_cases hp₃ : p₃ = nd.price
            · subst hp₃
              subst hcb
              by_cases hcf : lvl.chain.filter (fun y => decide (y ≠ nid)) = []
              · rw [Hnone hcf] at hlk
                cases hlk
              · rw [Hsome hcf, Option.some.injEq] at hlk
                subst hlk
                exact ⟨lvl, hlv, (mem_filter_ne.1 hmem₃).1⟩
            · rw [Hne p₃ hp₃] at hlk
              subst hcb
              exact ⟨l₃, hlk, hmem₃⟩
          · rw [if_neg hcb] at hlk
            exact ⟨l₃, hlk, hmem₃⟩
        obtain ⟨l₀1, hl01, hm01⟩ := key b₁ p₁ l₁ n h1 hn1
        obtain ⟨l₀2, hl02, hm02⟩ := key b₂ p₂ l₂ n h2 hn2
        exact W.disj _ _ _ _ _ _ n hl01 hl02 hm01 hm02
      · intro i n hi
        simp only [mk_setSide_order_lookup] at hi
        by_cases hio : i = order_id
        · rw [if_pos hio] at hi
          cases hi
        · rw [if_neg hio] at hi
          obtain ⟨o', lvl₂, ho', hid', hlv₂, hmem₂⟩ := W.index_wf i n hi
          have hne_nid : n ≠ nid := by
            intro hx
            subst hx
            exact hio (W.index_inj i order_id n hi hl)
          have hlev : ∃ lvl', mapLookup o'.price
              (if o'.is_buy = nd.is_buy then m' else sideOf s o'.is_buy) = some lvl'
              ∧ n ∈ lvl'.chain := by
            by_cases hcb : o'.is_buy = nd.is_buy
            · rw [if_pos hcb]
              by_cases hp' : o'.price = nd.price
              · rw [hcb, hp'] at hlv₂
                rw [hlv] at hlv₂
                rw [Option.some.injEq] at hlv₂
                subst hlv₂
                have hmemF : n ∈ lvl.chain.filter (fun y => decide (y ≠ nid)) :=
                  mem_filter_ne.2 ⟨hmem₂, hne_nid⟩
                have hcf : lvl.chain.filter (fun y => decide (y ≠ nid)) ≠ [] :=
                  List.ne_nil_of_mem hmemF
                rw [hp', Hsome hcf]
                exact ⟨_, rfl, hmemF⟩
              · rw [Hne _ hp']
                rw [hcb] at hlv₂
                exact ⟨lvl₂, hlv₂, hmem₂⟩
            · rw [if_neg hcb]
              exact ⟨lvl₂, hlv₂, hmem₂⟩
          obtain ⟨lvl', hlk, hmem'⟩ := hlev
          refine ⟨o', lvl', ?_, hid', ?_, hmem'⟩
          · rw [mk_setSide_nodes]
            simp [hne_nid, ho']
          · rw [sideOf_mk_setSide]
            exact hlk
      · intro i₁ i₂ n h1 h2
        simp only [mk_setSide_order_lookup] at h1 h2
        by_cases hi1 : i₁ = order_id
        · rw [if_pos hi1] at h1
          cases h1
        · rw [if_neg hi1] at h1
          by_cases hi2 : i₂ = order_id
          · rw [if_pos hi2] at h2
            cases h2
          · rw [if_neg hi2] at h2
            exact W.index_inj i₁ i₂ n h1 h2
      · intro n o2 h
        simp only [mk_setSide_nodes] at h
        rw [mk_setSide_next_node]
        by_cases hx : n = nid
        · rw [if_pos hx] at h
          cases h
        · rw [if_neg hx] at h
          exact W.fresh n o2 h

/-! ## Re-linking a live record (the price-changing `amend` step) -/

/-- Analogue of `LevelWf_append` for a record slot that is live-free but not
necessarily the allocation counter: the level extended at its tail by `nid`
is well formed. -/
theorem LevelWf_relink {t : State} (W : Wf t) {o : Order} {nid : NodeId}
    (hfree : t.nodes nid = none) (hq : o.quantity < w64) :
    LevelWf (fun n => if n = nid then some o else t.nodes n) o.is_buy o.price
      ⟨add64 ((mapLookup o.price (sideOf t o.is_buy)).getD ⟨0, []⟩).total_quantity
         o.quantity,
       ((mapLookup o.price (sideOf t o.is_buy)).getD ⟨0, []⟩).chain ++ [nid]⟩ := by
  have hlvl0 :
      ((mapLookup o.price (sideOf t o.is_buy)).getD ⟨0, []⟩).total_quantity
        = chainSum t.nodes
            ((mapLookup o.price (sideOf t o.is_buy)).getD ⟨0, []⟩).chain % w64
      ∧ ((mapLookup o.price (sideOf t o.is_buy)).getD ⟨0, []⟩).chain.Nodup
      ∧ (∀ n ∈ ((mapLookup o.price (sideOf t o.is_buy)).getD ⟨0, []⟩).chain,
          ∃ o', t.nodes n = some o' ∧ o'.is_buy = o.is_buy ∧ o'.price = o.price
            ∧ o'.quantity < w64)
      ∧ nid ∉ ((mapLookup o.price (sideOf t o.is_buy)).getD ⟨0, []⟩).chain := by
    cases hm : mapLookup o.price (sideOf t o.is_buy) with
    | none => simp [chainSum]
    | some lvl =>
      have hw := W.level_wf o.is_buy (o.price, lvl) (mapLookup_some_mem hm)
      refine ⟨hw.total_eq, hw.nodup, hw.members, ?_⟩
      intro hmem
      obtain ⟨o', ho', -⟩ := hw.members nid hmem
      rw [hfree] at ho'
      cases ho'
  obtain ⟨hl0tot, hl0nd, hl0mem, hl0fresh⟩ := hlvl0
  have hcongr : ∀ n ∈ ((mapLookup o.price (sideOf t o.is_buy)).getD ⟨0, []⟩).chain,
      (fun n => if n = nid then some o else t.nodes n) n = t.nodes n := by
    intro n hn
    have hne : n ≠ nid := fun hx => hl0fresh (hx ▸ hn)
    simp [hne]
  refine ⟨by simp, ?_, ?_, ?_⟩
  · show add64 _ o.quantity = chainSum _ (_ ++ [nid]) % w64
    rw [chainSum_append, chainSum_congr hcongr]
    have hone : chainSum (fun n => if n = nid then some o else t.nodes n)
        [nid] = o.quantity := by
      simp [chainSum, nodeQty]
    rw [hone, hl0tot, add64_mod_left]
  · show (_ ++ [nid]).Nodup
    refine List.Nodup.append hl0nd (List.nodup_singleton _) ?_
    intro x hx hmem
    rw [List.mem_singleton] at hmem
    exact hl0fresh (hmem ▸ hx)
  · intro n hn
    rcases List.mem_append.1 hn with h' | h'
    · obtain ⟨o', ho', h1, h2, h3⟩ := hl0mem n h'
      exact ⟨o', (hcongr n h').trans ho', h1, h2, h3⟩
    · rw [List.mem_singleton] at h'
      subst h'
      exact ⟨o, by simp, rfl, rfl, hq⟩

/-- Inserting a record into a live-free, unindexed slot `nid` below the
allocation counter, registering it under its identifier and appending it at
the tail of its side/price level, preserves the invariant.  This is the
second half of a price-changing `amend` (and is also how `add_order`
behaves, up to the counter bump). -/
theorem Wf_relink {t : State} (W : Wf t) (o : Order) (nid : NodeId)
    (hfree : t.nodes nid = none) (hlt : nid < t.next_node)
    (hno_index : ∀ i, t.order_lookup i ≠ some nid) (hq : o.quantity < w64) :
    Wf { setSide t o.is_buy
           (appendToLevel (cmpOf o.is_buy) (sideOf t o.is_buy) o.price nid o.quantity)
         with
         nodes := fun n => if n = nid then some o else t.nodes n,
         order_lookup := fun i => if i = o.order_id then some nid
           else t.order_lookup i } := by
  have hfresh_not_mem : ∀ (c : Bool) (p' : Int) (l' : PriceLevelData),
      mapLookup p' (sideOf t c) = some l' → nid ∉ l'.chain := by
    intro c p' l' hm hmem
    obtain ⟨o', ho', -⟩ :=
      (W.level_wf c (p', l') (mapLookup_some_mem hm)).members nid hmem
    rw [hfree] at ho'
    cases ho'
  have Hnew : mapLookup o.price
      (sideOf ({ setSide t o.is_buy
          (appendToLevel (cmpOf o.is_buy) (sideOf t o.is_buy) o.price nid o.quantity)
        with
        nodes := fun n => if n = nid then some o else t.nodes n,
        order_lookup := fun i => if i = o.order_id then some nid
          else t.order_lookup i } : State) o.is_buy)
      = some
        ⟨add64 ((mapLookup o.price (sideOf t o.is_buy)).getD ⟨0, []⟩).total_quantity
           o.quantity,
         ((mapLookup o.price (sideOf t o.is_buy)).getD ⟨0, []⟩).chain ++ [nid]⟩ := by
    rw [sideOf_mk_setSide, if_pos rfl]
    simp only [appendToLevel]
    exact mapLookup_mapInsert_self _ _ _ _
  have Hold : ∀ (c : Bool) (p' : Int), (c = o.is_buy → p' ≠ o.price) →
      mapLookup p'
        (sideOf ({ setSide t o.is_buy
            (appendToLevel (cmpOf o.is_buy) (sideOf t o.is_buy) o.price nid
              o.quantity) with
          nodes := fun n => if n = nid then some o else t.nodes n,
          order_lookup := fun i => if i = o.order_id then some nid
            else t.order_lookup i } : State) c)
        = mapLookup p' (sideOf t c) := by
    intro c p' hcp
    rw [sideOf_mk_setSide]
    by_cases hc : c = o.is_buy
    · rw [if_pos hc, hc]
      simp only [appendToLevel]
      exact mapLookup_mapInsert_ne _ _ _ (hcp hc)
    · rw [if_neg hc]
  have Hchain : ∀ (c : Bool) (p' : Int) (l' : PriceLevelData),
      mapLookup p'
        (sideOf ({ setSide t o.is_buy
            (appendToLevel (cmpOf o.is_buy) (sideOf t o.is_buy) o.price nid
              o.quantity) with
          nodes := fun n => if n = nid then some o else t.nodes n,
          order_lookup := fun i => if i = o.order_id then some nid
            else t.order_lookup i } : State) c) = some l' → ∀ n ∈ l'.chain,
        (n = nid ∧ c = o.is_buy ∧ p' = o.price) ∨
        (∃ l₀, mapLookup p' (sideOf t c) = some l₀ ∧ n ∈ l₀.chain) := by
    intro c p' l' hm n hn
    by_cases hcp : c = o.is_buy ∧ p' = o.price
    · obtain ⟨hc, hp⟩ := hcp
      subst hc
      subst hp
      rw [Hnew, Option.some.injEq] at hm
      subst hm
      rcases List.mem_append.1 hn with h' | h'
      · right
        cases hm0 : mapLookup o.price (sideOf t o.is_buy) with
        | none =>
          rw [hm0] at h'
          simp at h'
        | some l0 =>
          rw [hm0] at h'
          exact ⟨l0, rfl, h'⟩
      · left
        rw [List.mem_singleton] at h'
        exact ⟨h', rfl, rfl⟩
    · have hne : c = o.is_buy → p' ≠ o.price := fun hc hp => hcp ⟨hc, hp⟩
      rw [Hold c p' hne] at hm
      exact Or.inr ⟨l', hm, hn⟩
  constructor
  · intro c
    rw [sideOf_mk_setSide]
    by_cases hc : c = o.is_buy
    · rw [if_pos hc, hc]
      simp only [appendToLevel]
      exact sortedBy_mapInsert (cmpOf_laws _) _ _ (W.sorted _)
    · rw [if_neg hc]
      exact W.sorted c
  · intro c e he
    rw [mk_setSide_nodes]
    rw [sideOf_mk_setSide] at he
    by_cases hc : c = o.is_buy
    · subst hc
      rw [if_pos rfl] at he
      simp only [appendToLevel] at he
      rcases (mem_mapInsert_iff (cmpOf_laws _) (W.sorted _) _ _).1 he with h' | ⟨h', hp'⟩
      · rw [h']
        exact LevelWf_relink W hfree hq
      · refine LevelWf_congr ?_ (W.level_wf _ e h')
        intro n hn
        have hne : n ≠ nid := by
          intro hx
          subst hx
          exact hfresh_not_mem _ _ _
            (mem_mapLookup (cmpOf_laws _) (W.sorted _) h') hn
        simp [hne]
    · rw [if_neg hc] at he
      refine LevelWf_congr ?_ (W.level_wf _ e he)
      intro n hn
      have hne : n ≠ nid := by
        intro hx
        subst hx
        exact hfresh_not_mem _ _ _
          (mem_mapLookup (cmpOf_laws _) (W.sorted _) he) hn
      simp [hne]
  · intro b₁ p₁ l₁ b₂ p₂ l₂ n h1 h2 hn1 hn2
    rcases Hchain b₁ p₁ l₁ h1 n hn1 with ⟨he1, hb1, hp1⟩ | ⟨l₀, hl₀, hm₀⟩
    · rcases Hchain b₂ p₂ l₂ h2 n hn2 with ⟨he2, hb2, hp2⟩ | ⟨l₀2, hl₀2, hm₀2⟩
      · exact ⟨hb1.trans hb2.symm, hp1.trans hp2.symm⟩
      · exact absurd (he1 ▸ hm₀2) (hfresh_not_mem _ _ _ hl₀2)
    · rcases Hchain b₂ p₂ l₂ h2 n hn2 with ⟨he2, hb2, hp2⟩ | ⟨l₀2, hl₀2, hm₀2⟩
      · exact absurd (he2 ▸ hm₀) (hfresh_not_mem _ _ _ hl₀)
      · exact W.disj _ _ _ _ _ _ n hl₀ hl₀2 hm₀ hm₀2
  · intro i n hi
    simp only [mk_setSide_order_lookup] at hi
    by_cases hio : i = o.order_id
    · rw [if_pos hio, Option.some.injEq] at hi
      subst hi
      exact ⟨o, _, by simp [mk_setSide_nodes], hio.symm, Hnew,
        List.mem_append_right _ (List.mem_singleton.2 rfl)⟩
    · rw [if_neg hio] at hi
      obtain ⟨o', lvl₂, ho', hid, hlv, hmem⟩ := W.index_wf i n hi
      have hnn : n ≠ nid := fun hx => hno_index i (hx ▸ hi)
      have hlev : ∃ lvl', mapLookup o'.price
          (sideOf ({ setSide t o.is_buy
              (appendToLevel (cmpOf o.is_buy) (sideOf t o.is_buy) o.price nid
                o.quantity) with
            nodes := fun n => if n = nid then some o else t.nodes n,
            order_lookup := fun i => if i = o.order_id then some nid
              else t.order_lookup i } : State) o'.is_buy)
          = some lvl' ∧ n ∈ lvl'.chain := by
        by_cases hcp : o'.is_buy = o.is_buy ∧ o'.price = o.price
        · obtain ⟨hb', hp'⟩ := hcp
          rw [hb', hp', Hnew]
          refine ⟨_, rfl, ?_⟩
          have hgetD : (mapLookup o.price (sideOf t o.is_buy)).getD ⟨0, []⟩ = lvl₂ := by
            rw [← hb', ← hp', hlv]
            rfl
          rw [hgetD]
          exact List.mem_append_left _ hmem
        · have hne : o'.is_buy = o.is_buy → o'.price ≠ o.price :=
            fun hc hp => hcp ⟨hc, hp⟩
          rw [Hold _ _ hne]
          exact ⟨lvl₂, hlv, hmem⟩
      obtain ⟨lvl', hl1, hl2⟩ := hlev
      exact ⟨o', lvl', by simp [mk_setSide_nodes, hnn, ho'], hid, hl1, hl2⟩
  · intro i₁ i₂ n h1 h2
    simp only [mk_setSide_order_lookup] at h1 h2
    by_cases hi1 : i₁ = o.order_id <;> by_cases hi2 : i₂ = o.order_id
    · rw [hi1, hi2]
    · rw [if_pos hi1, Option.some.injEq] at h1
      rw [if_neg hi2] at h2
      subst h1
      exact absurd h2 (hno_index i₂)
    · rw [if_neg hi1] at h1
      rw [if_pos hi2, Option.some.injEq] at h2
      subst h2
      exact absurd h1 (hno_index i₁)
    · rw [if_neg hi1] at h1
      rw [if_neg hi2] at h2
      exact W.index_inj i₁ i₂ n h1 h2
  · intro n o' h
    simp only [mk_setSide_nodes] at h
    rw [mk_setSide_next_node]
    by_cases hn : n = nid
    · subst hn
      exact hlt
    · rw [if_neg hn] at h
      exact W.fresh n o' h

/-! ## Equations for `amend_order` and invariant preservation -/

theorem amend_order_none {s : State} {order_id : Nat} (new_price : Int) (q : Nat)
    (h : s.order_lookup order_id = none) :
    amend_order s order_id new_price q = (false, s) := by
  simp only [amend_order, h]

theorem amend_order_none_node {s : State} {order_id : Nat} {nid : NodeId}
    (new_price : Int) (q : Nat) (h1 : s.order_lookup order_id = some nid)
    (h2 : s.nodes nid = none) :
    amend_order s order_id new_price q = (false, s) := by
  simp only [amend_order, h1, h2]

/-- `if (new_quantity == 0) return cancel_order(order_id);` — for every
state and price argument, a zero-quantity amend is extensionally the
cancel call (orderbook.cpp lines 146-148). -/
theorem amend_zero_eq_cancel (s : State) (order_id : Nat) (new_price : Int) :
    amend_order s order_id new_price 0 = cancel_order s order_id := by
  cases hl : s.order_lookup order_id with
  | none =>
    rw [amend_order_none new_price 0 hl, cancel_order_none hl]
  | some nid =>
    cases hn : s.nodes nid with
    | none =>
      rw [amend_order_none_node new_price 0 hl hn, cancel_order_none_node hl hn]
    | some nd =>
      simp only [amend_order, hl, hn]
      rw [if_pos trivial]

theorem amend_order_price_change {s : State} {order_id : Nat} {nid : NodeId}
    {nd : Order} {new_price : Int} {q : Nat} {m1 : SideMap}
    (h1 : s.order_lookup order_id = some nid) (h2 : s.nodes nid = some nd)
    (hq : q ≠ 0) (hp : new_price ≠ nd.price)
    (h3 : removeFromLevel (cmpOf nd.is_buy) (sideOf s nd.is_buy) nd.price nid
        nd.quantity = some m1) :
    amend_order s order_id new_price q
      = (true,
         { setSide s nd.is_buy
             (appendToLevel (cmpOf nd.is_buy) m1 new_price nid q) with
           nodes := fun n =>
             if n = nid then some { nd with price := new_price, quantity := q }
             else s.nodes n }) := by
  simp only [amend_order, h1, h2, if_neg hq, if_pos hp, h3]

theorem amend_order_price_change_no_level {s : State} {order_id : Nat}
    {nid : NodeId} {nd : Order} {new_price : Int} {q : Nat}
    (h1 : s.order_lookup order_id = some nid) (h2 : s.nodes nid = some nd)
    (hq : q ≠ 0) (hp : new_price ≠ nd.price)
    (h3 : removeFromLevel (cmpOf nd.is_buy) (sideOf s nd.is_buy) nd.price nid
        nd.quantity = none) :
    amend_order s order_id new_price q = (false, s) := by
  simp only [amend_order, h1, h2, if_neg hq, if_pos hp, h3]

theorem amend_order_same_price {s : State} {order_id : Nat} {nid : NodeId}
    {nd : Order} {q : Nat} {lvl : PriceLevelData}
    (h1 : s.order_lookup order_id = some nid) (h2 : s.nodes nid = some nd)
    (hq : q ≠ 0)
    (h3 : mapLookup nd.price (sideOf s nd.is_buy) = some lvl) :
    amend_order s order_id nd.price q
      = (true,
         { setSide s nd.is_buy
             (mapInsert (cmpOf nd.is_buy) nd.price
               ⟨add64 (sub64 lvl.total_quantity nd.quantity) q, lvl.chain⟩
               (sideOf s nd.is_buy)) with
           nodes := fun n =>
             if n = nid then some { nd with quantity := q } else s.nodes n }) := by
  simp only [amend_order, h1, h2, if_neg hq]
  rw [if_neg (fun hx : nd.price ≠ nd.price => hx rfl)]
  simp only [h3]

theorem amend_order_same_price_no_level {s : State} {order_id : Nat}
    {nid : NodeId} {nd : Order} {q : Nat}
    (h1 : s.order_lookup order_id = some nid) (h2 : s.nodes nid = some nd)
    (hq : q ≠ 0)
    (h3 : mapLookup nd.price (sideOf s nd.is_buy) = none) :
    amend_order s order_id nd.price q = (false, s) := by
  simp only [amend_order, h1, h2, if_neg hq]
  rw [if_neg (fun hx : nd.price ≠ nd.price => hx rfl)]
  simp only [h3]

/-- `amend_order` preserves the book invariant for a `uint64`-representable
quantity argument. -/
theorem Wf_amend {s : State} (W : Wf s) (order_id : Nat) (new_price : Int)
    {q : Nat} (hql : q < w64) : Wf ((amend_order s order_id new_price q).2) := by
  cases hl : s.order_lookup order_id with
  | none =>
    rw [amend_order_none new_price q hl]
    exact W
  | some nid =>
    cases hn : s.nodes nid with
    | none =>
      rw [amend_order_none_node new_price q hl hn]
      exact W
    | some nd =>
      by_cases hq0 : q = 0
      · subst hq0
        rw [amend_zero_eq_cancel]
        exact Wf_cancel W order_id
      obtain ⟨o, lvl, ho, hid, hlv, hmem⟩ := W.index_wf _ _ hl
      rw [hn, Option.some.injEq] at ho
      subst ho
      have hw : LevelWf s.nodes nd.is_buy nd.price lvl :=
        W.level_wf nd.is_buy (nd.price, lvl) (mapLookup_some_mem hlv)
      have hqlt : nd.quantity < w64 := by
        obtain ⟨o2, ho2, -, -, hq2⟩ := hw.members nid hmem
        rw [hn, Option.some.injEq] at ho2
        rw [ho2]
        exact hq2
      by_cases hpc : new_price ≠ nd.price
      · -- the price-changing branch: unlink (exactly as cancel does), then
        -- re-link the updated record (Wf_relink) over the cancel state
        obtain ⟨m1, hrm, -, -, -, -, -⟩ :=
          removeFromLevel_spec (cmpOf_laws nd.is_buy) (W.sorted nd.is_buy) hlv nid
            nd.quantity
        rw [amend_order_price_change hl hn hq0 hpc hrm]
        have hcanc := Wf_cancel W order_id
        rw [cancel_order_some hl hn hrm] at hcanc
        have happly := Wf_relink hcanc { nd with price := new_price, quantity := q }
          nid ?hfree ?hlt ?hno hql
        case hfree =>
          rw [mk_setSide_nodes]
          simp
        case hlt =>
          rw [mk_setSide_next_node]
          exact W.fresh nid nd hn
        case hno =>
          intro i
          rw [mk_setSide_order_lookup]
          by_cases hio : i = order_id
          · simp [hio]
          · simp only [if_neg hio]
            intro hx
            exact hio (W.index_inj i order_id nid hx hl)
        convert happly using 2
        cases hb : nd.is_buy <;> simp_all [setSide, sideOf] <;>
          (funext i; by_cases hio : i = order_id <;> simp [hio, hl])
      · -- same price, quantity-only change
        have hpq : new_price = nd.price := not_ne_iff.1 hpc
        subst hpq
        rw [amend_order_same_price hl hn hq0 hlv]
        have hnid_only : ∀ (c : Bool) (p₂ : Int) (l₂ : PriceLevelData),
            mapLookup p₂ (sideOf s c) = some l₂ → nid ∈ l₂.chain →
            c = nd.is_buy ∧ p₂ = nd.price := by
          intro c p₂ l₂ ha hb
          exact W.disj c p₂ l₂ nd.is_buy nd.price lvl nid ha hlv hb hmem
        have hcong : ∀ (c : Bool) (e : Int × PriceLevelData), e ∈ sideOf s c →
            ¬(c = nd.is_buy ∧ e.1 = nd.price) →
            ∀ n ∈ e.2.chain,
              (fun n => if n = nid then some { nd with quantity := q }
                else s.nodes n) n = s.nodes n := by
          intro c e he hne n hnm
          have hnn : n ≠ nid := by
            intro hx
            subst hx
            exact hne
              (hnid_only c e.1 e.2 (mem_mapLookup (cmpOf_laws c) (W.sorted c) he) hnm)
          simp [hnn]
        constructor
        · intro c
          rw [sideOf_mk_setSide2]
          by_cases hcb : c = nd.is_buy
          · rw [if_pos hcb, hcb]
            exact sortedBy_mapInsert (cmpOf_laws _) _ _ (W.sorted _)
          · rw [if_neg hcb]
            exact W.sorted c
        · intro c e he
          rw [sideOf_mk_setSide2] at he
          rw [mk_setSide_nodes2]
          by_cases hcb : c = nd.is_buy
          · rw [if_pos hcb] at he
            subst hcb
            rcases (mem_mapInsert_iff (cmpOf_laws _) (W.sorted _) _ _).1 he
              with h' | ⟨h', hp'⟩
            · rw [h']
              have hSsplit := chainSum_filter_ne s.nodes hw.nodup hmem
              have hq_eq : nodeQty s.nodes nid = nd.quantity := by
                rw [nodeQty, hn]
                rfl
              have hcongF : ∀ n ∈ lvl.chain.filter (fun y => decide (y ≠ nid)),
                  (fun n => if n = nid then some { nd with quantity := q }
                    else s.nodes n) n = s.nodes n := by
                intro n hnf
                have hne2 := (mem_filter_ne.1 hnf).2
                simp [hne2]
              refine ⟨hw.nonempty, ?_, hw.nodup, ?_⟩
              · show add64 (sub64 lvl.total_quantity nd.quantity) q
                  = chainSum _ lvl.chain % w64
                have hnewsplit := chainSum_filter_ne
                  (fun n => if n = nid then some { nd with quantity := q }
                    else s.nodes n) hw.nodup hmem
                have hq_new : nodeQty
                    (fun n => if n = nid then some { nd with quantity := q }
                      else s.nodes n) nid = q := by
                  simp [nodeQty]
                rw [hnewsplit, hq_new, chainSum_congr hcongF, hw.total_eq, hSsplit,
                  hq_eq, sub64_add_left hqlt, add64_mod_left]
                congr 1
                omega
              · intro n hnm
                by_cases hx : n = nid
                · subst hx
                  obtain ⟨o2, ho2, hb2, hp2, -⟩ := hw.members n hnm
                  rw [hn, Option.some.injEq] at ho2
                  refine ⟨{ nd with quantity := q }, by simp, ?_, ?_, hql⟩
                  · show nd.is_buy = nd.is_buy
                    rfl
                  · show nd.price = nd.price
                    rfl
                · obtain ⟨o2, ho2, hb2, hp2, hq2⟩ := hw.members n hnm
                  exact ⟨o2, by simp [hx, ho2], hb2, hp2, hq2⟩
            · exact LevelWf_congr (hcong _ e h' (fun hx => hp' hx.2))
                (W.level_wf _ e h')
          · rw [if_neg hcb] at he
            exact LevelWf_congr (hcong c e he (fun hx => hcb hx.1))
              (W.level_wf c e he)
        · intro b₁ p₁ l₁ b₂ p₂ l₂ n h1 h2 hn1 hn2
          rw [sideOf_mk_setSide2] at h1 h2
          have key : ∀ (c : Bool) (p₃ : Int) (l₃ : PriceLevelData) (n₃ : NodeId),
              mapLookup p₃
                (if c = nd.is_buy then
                  mapInsert (cmpOf nd.is_buy) nd.price
                    ⟨add64 (sub64 lvl.total_quantity nd.quantity) q, lvl.chain⟩
                    (sideOf s nd.is_buy)
                else sideOf s c) = some l₃ →
              n₃ ∈ l₃.chain →
              ∃ l₀, mapLookup p₃ (sideOf s c) = some l₀ ∧ n₃ ∈ l₀.chain := by
            intro c p₃ l₃ n₃ hlk hmem₃
            by_cases hcb : c = nd.is_buy
            · rw [if_pos hcb] at hlk
              subst hcb
              by_cases hp₃ : p₃ = nd.price
              · subst hp₃
                rw [mapLookup_mapInsert_self, Option.some.injEq] at hlk
                subst hlk
                exact ⟨lvl, hlv, hmem₃⟩
              · rw [mapLookup_mapInsert_ne _ _ _ hp₃] at hlk
                exact ⟨l₃, hlk, hmem₃⟩
            · rw [if_neg hcb] at hlk
              exact ⟨l₃, hlk, hmem₃⟩
          obtain ⟨l₀1, hl01, hm01⟩ := key b₁ p₁ l₁ n h1 hn1
          obtain ⟨l₀2, hl02, hm02⟩ := key b₂ p₂ l₂ n h2 hn2
          exact W.disj _ _ _ _ _ _ n hl01 hl02 hm01 hm02
        · intro i n hi
          simp only [mk_setSide_order_lookup2, setSide_order_lookup] at hi
          obtain ⟨o', lvl₂, ho', hid', hlv₂, hmem₂⟩ := W.index_wf i n hi
          by_cases hx : n = nid
          · subst hx
            rw [hn, Option.some.injEq] at ho'
            subst ho'
            refine ⟨{ nd with quantity := q },
              ⟨add64 (sub64 lvl.total_quantity nd.quantity) q, lvl.chain⟩,
              ?_, hid', ?_, hmem⟩
            · rw [mk_setSide_nodes2]
              simp
            · rw [sideOf_mk_setSide2]
              show mapLookup nd.price
                (if nd.is_buy = nd.is_buy then _ else _) = some _
              rw [if_pos rfl]
              exact mapLookup_mapInsert_self _ _ _ _
          · have hlev : ∃ lvl', mapLookup o'.price
                (if o'.is_buy = nd.is_buy then
                  mapInsert (cmpOf nd.is_buy) nd.price
                    ⟨add64 (sub64 lvl.total_quantity nd.quantity) q, lvl.chain⟩
                    (sideOf s nd.is_buy)
                else sideOf s o'.is_buy) = some lvl' ∧ n ∈ lvl'.chain := by
              by_cases hcb : o'.is_buy = nd.is_buy
              · rw [if_pos hcb]
                by_cases hp' : o'.price = nd.price
                · rw [hcb, hp'] at hlv₂
                  rw [hlv] at hlv₂
                  rw [Option.some.injEq] at hlv₂
                  subst hlv₂
                  rw [hp']
                  rw [mapLookup_mapInsert_self]
                  exact ⟨_, rfl, hmem₂⟩
                · rw [mapLookup_mapInsert_ne _ _ _ hp']
                  rw [hcb] at hlv₂
                  exact ⟨lvl₂, hlv₂, hmem₂⟩
              · rw [if_neg hcb]
                exact ⟨lvl₂, hlv₂, hmem₂⟩
            obtain ⟨lvl', hlk, hmem'⟩ := hlev
            refine ⟨o', lvl', ?_, hid', ?_, hmem'⟩
            · rw [mk_setSide_nodes2]
              simp [hx, ho']
            · rw [sideOf_mk_setSide2]
              exact hlk
        · intro i₁ i₂ n h1 h2
          simp only [mk_setSide_order_lookup2, setSide_order_lookup] at h1 h2
          exact W.index_inj i₁ i₂ n h1 h2
        · intro n o2 h
          simp only [mk_setSide_nodes2] at h
          rw [mk_setSide_next_node2]
          by_cases hx : n = nid
          · subst hx
            exact W.fresh n nd hn
          · rw [if_neg hx] at h
            exact W.fresh n o2 h

/-- The invariant holds along every operation trace whose `add`s satisfy
their preconditions and whose quantity arguments are `uint64` values. -/
theorem Wf_runOps {s : State} (W : Wf s) (ops : List Op)
    (hv : validFrom s ops = true) : Wf (runOps s ops) := by
  induction ops generalizing s with
  | nil => exact W
  | cons op rest ih =>
    rw [validFrom, Bool.and_eq_true] at hv
    obtain ⟨h1, h2⟩ := hv
    rw [runOps]
    refine ih ?_ h2
    cases op with
    | add o =>
      rw [opOk] at h1
      simp only [Bool.and_eq_true, decide_eq_true_eq] at h1
      exact Wf_add W h1.2
    | cancel i => exact Wf_cancel W i
    | amend i p q =>
      rw [opOk] at h1
      simp only [decide_eq_true_eq] at h1
      exact Wf_amend W i p h1

/-! ## The claims -/

/-- The exact-sum ledger property (the claim's literal reading): every stored
level's aggregate equals the exact, unbounded sum of its chain's
quantities. -/
def LevelSumsExact (s : State) : Prop :=
  (∀ e ∈ s.bids, e.2.total_quantity = chainSum s.nodes e.2.chain)
    ∧ (∀ e ∈ s.asks, e.2.total_quantity = chainSum s.nodes e.2.chain)

/-- The ledger property the `uint64_t` code actually maintains: aggregates
equal the chain sums reduced modulo `2 ^ 64`. -/
def LevelSumsMod (s : State) : Prop :=
  (∀ e ∈ s.bids, e.2.total_quantity = chainSum s.nodes e.2.chain % w64)
    ∧ (∀ e ∈ s.asks, e.2.total_quantity = chainSum s.nodes e.2.chain % w64)

/-- No price level with an empty chain is stored on either side. -/
def NoEmptyLevels (s : State) : Prop :=
  (∀ e ∈ s.bids, e.2.chain ≠ []) ∧ (∀ e ∈ s.asks, e.2.chain ≠ [])

/-- Every identifier in the index resolves to a live record whose stored
side/price name a stored level whose chain contains the record. -/
def IndexResolves (s : State) : Prop :=
  ∀ i n, s.order_lookup i = some n → ∃ o lvl, s.nodes n = some o ∧
    o.order_id = i ∧ mapLookup o.price (sideOf s o.is_buy) = some lvl ∧
    n ∈ lvl.chain

/-- C1 (amended): after every valid operation sequence from the empty book,
each price level's `total_quantity` equals the sum of its chain's
quantities modulo `2 ^ 64` — hence the exact sum whenever that sum is below
`2 ^ 64` — no stored level has an empty chain, and every identifier in the
index resolves to a matching record and level.  The claim's unqualified
"exact sum" fails only through `uint64_t` wrap-around (see the
counterexample). -/
theorem c1_ledger_invariants (ops : List Op)
    (hv : validFrom emptyBook ops = true) :
    LevelSumsMod (runOps emptyBook ops)
      ∧ (∀ e ∈ (runOps emptyBook ops).bids,
          chainSum (runOps emptyBook ops).nodes e.2.chain < w64 →
            e.2.total_quantity = chainSum (runOps emptyBook ops).nodes e.2.chain)
      ∧ (∀ e ∈ (runOps emptyBook ops).asks,
          chainSum (runOps emptyBook ops).nodes e.2.chain < w64 →
            e.2.total_quantity = chainSum (runOps emptyBook ops).nodes e.2.chain)
      ∧ NoEmptyLevels (runOps emptyBook ops)
      ∧ IndexResolves (runOps emptyBook ops) := by
  have W := Wf_runOps Wf_empty ops hv
  have hmodb : ∀ e ∈ (runOps emptyBook ops).bids,
      e.2.total_quantity = chainSum (runOps emptyBook ops).nodes e.2.chain % w64 :=
    fun e he => (W.level_wf true e he).total_eq
  have hmoda : ∀ e ∈ (runOps emptyBook ops).asks,
      e.2.total_quantity = chainSum (runOps emptyBook ops).nodes e.2.chain % w64 :=
    fun e he => (W.level_wf false e he).total_eq
  refine ⟨⟨hmodb, hmoda⟩, ?_, ?_, ⟨?_, ?_⟩, W.index_wf⟩
  · intro e he hlt
    rw [hmodb e he, Nat.mod_eq_of_lt hlt]
  · intro e he hlt
    rw [hmoda e he, Nat.mod_eq_of_lt hlt]
  · exact fun e he => (W.level_wf true e he).nonempty
  · exact fun e he => (W.level_wf false e he).nonempty

/-- A trace of two precondition-satisfying buy `add`s of quantity `2 ^ 63`
at the same price. -/
def overflowOps : List Op :=
  [.add ⟨1, true, 100, 2 ^ 63, 0⟩, .add ⟨2, true, 100, 2 ^ 63, 0⟩]

/-- C1 counterexample: after two valid `add`s of `2 ^ 63` at price 100 the
stored `uint64_t` aggregate has wrapped to 0, while the exact sum of the
two chained records is `2 ^ 64` — so the claim's "total_quantity equals the
exact sum" fails on this reachable state. -/
theorem c1_counterexample :
    validFrom emptyBook overflowOps = true
      ∧ ¬ LevelSumsExact (runOps emptyBook overflowOps) := by
  constructor
  · decide
  · intro h
    have h1 := h.1 (100, ⟨0, [0, 1]⟩) (by decide)
    revert h1
    decide

/-- The concrete trace of the specification's worked scenario. -/
def scenarioOps : List Op :=
  [.add ⟨1, true, 100, 10, 0⟩, .add ⟨2, true, 100, 5, 0⟩,
   .add ⟨3, true, 101, 7, 0⟩, .cancel 1, .amend 2 100 20, .amend 3 99 7]

/-- C1 witness: the specification's concrete scenario is a valid trace and
the proved invariants hold at its end state. -/
theorem c1_ledger_invariants_witness :
    validFrom emptyBook scenarioOps = true
      ∧ (LevelSumsMod (runOps emptyBook scenarioOps)
          ∧ (∀ e ∈ (runOps emptyBook scenarioOps).bids,
              chainSum (runOps emptyBook scenarioOps).nodes e.2.chain < w64 →
                e.2.total_quantity
                  = chainSum (runOps emptyBook scenarioOps).nodes e.2.chain)
          ∧ (∀ e ∈ (runOps emptyBook scenarioOps).asks,
              chainSum (runOps emptyBook scenarioOps).nodes e.2.chain < w64 →
                e.2.total_quantity
                  = chainSum (runOps emptyBook scenarioOps).nodes e.2.chain)
          ∧ NoEmptyLevels (runOps emptyBook scenarioOps)
          ∧ IndexResolves (runOps emptyBook scenarioOps)) :=
  ⟨by decide, c1_ledger_invariants scenarioOps (by decide)⟩

/-- A corrupted book: the index maps identifier 1 to a live buy record at
price 100, but the bids map holds no level at 100 (an internal invariant
violation, unreachable through the public operations). -/
def badState : State :=
  { bids := [], asks := [],
    nodes := fun n => if n = 0 then some ⟨1, true, 100, 5, 0⟩ else none,
    order_lookup := fun i => if i = 1 then some 0 else none,
    next_node := 1 }

/-- C2: on a state whose index resolves to a record with no matching price
level, `cancel_order` and both `amend_order` branches return a silent
`false` with no mutation — the source has no assertion at all — whereas the
specification requires a fatal assertion there.  This certifies the
divergence backing the `code_bug` verdict. -/
theorem c2_missing_level_silent_false :
    cancel_order badState 1 = (false, badState)
      ∧ amend_order badState 1 100 7 = (false, badState)
      ∧ amend_order badState 1 101 7 = (false, badState) :=
  ⟨rfl, rfl, rfl⟩

/-- The scenario's intermediate states. -/
def c3Book0 : State :=
  runOps emptyBook
    [.add ⟨1, true, 100, 10, 0⟩, .add ⟨2, true, 100, 5, 0⟩,
     .add ⟨3, true, 101, 7, 0⟩]

def c3Book1 : State := (cancel_order c3Book0 1).2

def c3Book2 : State := (amend_order c3Book1 2 100 20).2

def c3Book3 : State := (amend_order c3Book2 3 99 7).2

/-- C3: the worked scenario — bid snapshots after the three adds, the
cancel, the quantity-only amend (with order 2 left as sole occupant of
level 100) and the price-moving amend are exactly as specified. -/
theorem c3_concrete_scenario :
    (get_snapshot c3Book0 2).1 = [⟨101, 7⟩, ⟨100, 15⟩]
      ∧ (cancel_order c3Book0 1).1 = true
      ∧ (get_snapshot c3Book1 2).1 = [⟨101, 7⟩, ⟨100, 5⟩]
      ∧ (amend_order c3Book1 2 100 20).1 = true
      ∧ (get_snapshot c3Book2 2).1 = [⟨101, 7⟩, ⟨100, 20⟩]
      ∧ (mapLookup 100 c3Book2.bids).map PriceLevelData.chain = some [1]
      ∧ c3Book2.order_lookup 2 = some 1
      ∧ c3Book2.nodes 1 = some ⟨2, true, 100, 20, 0⟩
      ∧ (amend_order c3Book2 3 99 7).1 = true
      ∧ (get_snapshot c3Book3 2).1 = [⟨100, 20⟩, ⟨99, 7⟩] := by
  decide

/-- C5: cancelling an identifier absent from the index reports failure and
returns the state entirely unchanged (hence identical snapshots at every
depth), and after a successful cancel a second cancel of the same
identifier again reports failure with no mutation. -/
theorem c5_cancel_not_found (s : State) (order_id : Nat) :
    (s.order_lookup order_id = none → cancel_order s order_id = (false, s))
      ∧ ((cancel_order s order_id).1 = true →
          cancel_order (cancel_order s order_id).2 order_id
            = (false, (cancel_order s order_id).2)) := by
  constructor
  · exact cancel_order_none
  · intro hsucc
    apply cancel_order_none
    cases hl : s.order_lookup order_id with
    | none =>
      rw [cancel_order_none hl] at hsucc
      cases hsucc
    | some nid =>
      cases hn : s.nodes nid with
      | none =>
        rw [cancel_order_none_node hl hn] at hsucc
        cases hsucc
      | some nd =>
        cases hrm : removeFromLevel (cmpOf nd.is_buy) (sideOf s nd.is_buy) nd.price
            nid nd.quantity with
        | none =>
          rw [cancel_order_no_level hl hn hrm] at hsucc
          cases hsucc
        | some m' =>
          rw [cancel_order_some hl hn hrm]
          simp only [mk_setSide_order_lookup]
          rw [if_pos trivial]

/-- C5 witness: a cancel on the empty book fails without mutation, and a
double cancel of order 1 fails the second time without mutation. -/
theorem c5_cancel_not_found_witness :
    cancel_order emptyBook 7 = (false, emptyBook)
      ∧ cancel_order (cancel_order (add_order emptyBook ⟨1, true, 100, 10, 0⟩) 1).2 1
          = (false, (cancel_order (add_order emptyBook ⟨1, true, 100, 10, 0⟩) 1).2) :=
  ⟨(c5_cancel_not_found emptyBook 7).1 rfl,
   (c5_cancel_not_found (add_order emptyBook ⟨1, true, 100, 10, 0⟩) 1).2 (by decide)⟩

/-- C6: for every book state, identifier and price, a zero-quantity amend
is the same call as a cancel: identical success/failure flag and identical
resulting state (source lines 146-148 return `cancel_order(order_id)`). -/
theorem c6_amend_zero_is_cancel (s : State) (order_id : Nat) (new_price : Int) :
    amend_order s order_id new_price 0 = cancel_order s order_id :=
  amend_zero_eq_cancel s order_id new_price

/-- C4: on a well-formed book, adding an order whose identifier is free and
then cancelling it succeeds and restores an observably identical book: the
snapshot agrees at every depth and the index holds exactly the same
identifiers.  (Internally only the allocation counter differs.) -/
theorem c4_add_cancel_roundtrip {s : State} (W : Wf s) {o : Order}
    (habs : s.order_lookup o.order_id = none) (hq : 0 < o.quantity) :
    (cancel_order (add_order s o) o.order_id).1 = true
      ∧ (∀ d, get_snapshot (cancel_order (add_order s o) o.order_id).2 d
          = get_snapshot s d)
      ∧ (∀ i, ((cancel_order (add_order s o) o.order_id).2.order_lookup i).isSome
          = (s.order_lookup i).isSome) := by
  have hl' : (add_order s o).order_lookup o.order_id = some s.next_node := by
    simp [add_order_order_lookup]
  have hn' : (add_order s o).nodes s.next_node = some o := by
    simp [add_order_nodes]
  have hL' : mapLookup o.price (sideOf (add_order s o) o.is_buy)
      = some
        ⟨add64 ((mapLookup o.price (sideOf s o.is_buy)).getD ⟨0, []⟩).total_quantity
           o.quantity,
         ((mapLookup o.price (sideOf s o.is_buy)).getD ⟨0, []⟩).chain
           ++ [s.next_node]⟩ := by
    rw [sideOf_add_order, if_pos rfl]
    simp only [appendToLevel]
    exact mapLookup_mapInsert_self _ _ _ _
  have hfresh : s.next_node
      ∉ ((mapLookup o.price (sideOf s o.is_buy)).getD ⟨0, []⟩).chain := by
    cases hm : mapLookup o.price (sideOf s o.is_buy) with
    | none => simp
    | some lvl =>
      intro hmm
      exact absurd (W.chain_mem_lt hm hmm) (lt_irrefl _)
  have hfilter : (((mapLookup o.price (sideOf s o.is_buy)).getD ⟨0, []⟩).chain
        ++ [s.next_node]).filter (fun y => decide (y ≠ s.next_node))
      = ((mapLookup o.price (sideOf s o.is_buy)).getD ⟨0, []⟩).chain := by
    rw [List.filter_append, filter_ne_of_not_mem hfresh]
    simp
  have hm' : removeFromLevel (cmpOf o.is_buy) (sideOf (add_order s o) o.is_buy)
      o.price s.next_node o.quantity = some (sideOf s o.is_buy) := by
    rw [removeFromLevel_eq hL' s.next_node o.quantity]
    rw [Option.some.injEq]
    show (if _ = _ then _ else _) = _
    rw [hfilter]
    rw [sideOf_add_order, if_pos rfl]
    simp only [appendToLevel]
    cases hm : mapLookup o.price (sideOf s o.is_buy) with
    | none =>
      exact (if_pos rfl).trans (mapErase_mapInsert hm)
    | some lvl =>
      have hwl : LevelWf s.nodes o.is_buy o.price lvl :=
        W.level_wf o.is_buy (o.price, lvl) (mapLookup_some_mem hm)
      simp only [Option.getD_some]
      rw [if_neg hwl.nonempty]
      have htlt : lvl.total_quantity < w64 := by
        rw [hwl.total_eq]
        exact Nat.mod_lt _ w64_pos
      rw [mapInsert_mapInsert]
      rw [sub64_add64_cancel o.quantity htlt]
      exact mapInsert_self (cmpOf_laws o.is_buy) (W.sorted o.is_buy) hm
  have hres := cancel_order_some hl' hn' hm'
  have hsides : ∀ c, sideOf (cancel_order (add_order s o) o.order_id).2 c
      = sideOf s c := by
    intro c
    rw [hres]
    rw [sideOf_mk_setSide]
    by_cases hcb : c = o.is_buy
    · rw [if_pos hcb, hcb]
    · rw [if_neg hcb, sideOf_add_order, if_neg hcb]
  refine ⟨by rw [hres], ?_, ?_⟩
  · intro d
    have hb := hsides true
    have ha := hsides false
    rw [sideOf_true, sideOf_true] at hb
    rw [sideOf_false, sideOf_false] at ha
    rw [get_snapshot, get_snapshot, hb, ha]
  · intro i
    rw [hres]
    simp only [mk_setSide_order_lookup, add_order_order_lookup]
    by_cases hio : i = o.order_id
    · rw [if_pos hio, hio, habs]
    · rw [if_neg hio, if_neg hio]

/-- The one-order book used as a concrete well-formed state by several
witnesses. -/
def wOrder : Order := ⟨1, true, 100, 10, 0⟩

def wBook : State := add_order emptyBook wOrder

theorem wBook_wf : Wf wBook :=
  Wf_add Wf_empty (by decide)

/-- C4 witness: adding order 5 to the empty book and cancelling it succeeds
and restores the empty book's observables (checked at depth 3 and
identifier 5). -/
theorem c4_add_cancel_roundtrip_witness :
    (cancel_order (add_order emptyBook ⟨5, true, 10, 3, 0⟩) 5).1 = true
      ∧ get_snapshot (cancel_order (add_order emptyBook ⟨5, true, 10, 3, 0⟩) 5).2 3
          = get_snapshot emptyBook 3
      ∧ ((cancel_order (add_order emptyBook ⟨5, true, 10, 3, 0⟩) 5).2.order_lookup
            5).isSome
          = (emptyBook.order_lookup 5).isSome :=
  ⟨(c4_add_cancel_roundtrip Wf_empty rfl (by decide)).1,
   (c4_add_cancel_roundtrip Wf_empty rfl (by decide)).2.1 3,
   (c4_add_cancel_roundtrip Wf_empty rfl (by decide)).2.2 5⟩

theorem amend_mod_eq {t oldq q : Nat} (ht : t < w64) (ho : oldq < w64) :
    (add64 (sub64 t oldq) q + oldq) % w64 = (t + q) % w64 := by
  simp only [add64, sub64, w64] at *
  omega

theorem amend_exact_eq {t oldq q : Nat} (ht : t < w64) (ho : oldq < w64)
    (h1 : oldq ≤ t + q) (h2 : t + q - oldq < w64) :
    add64 (sub64 t oldq) q + oldq = t + q := by
  simp only [add64, sub64, w64] at *
  omega

/-- C7 (amended): a same-price amend of a resting order to a positive
`uint64` quantity `q` succeeds, leaves the level's FIFO chain — and hence
the order's relative position — completely unchanged, changes the level's
aggregate by exactly `q - old_q` in `uint64` arithmetic (stated as the
congruence `new + old_q ≡ old + q (mod 2^64)`, which is the exact integer
delta whenever no wrap occurs, as the explicit implication states), and
leaves every other price level and the whole other side untouched.  The
claim's unqualified "exactly `q` minus the previous quantity" fails only
through `uint64_t` wrap-around (see the counterexample). -/
theorem c7_same_price_amend {s : State} (W : Wf s) {order_id : Nat}
    {nid : NodeId} {nd : Order} (hl : s.order_lookup order_id = some nid)
    (hn : s.nodes nid = some nd) {q : Nat} (hq : 0 < q) (hqw : q < w64) :
    ∃ lvl lvl',
      mapLookup nd.price (sideOf s nd.is_buy) = some lvl
        ∧ (amend_order s order_id nd.price q).1 = true
        ∧ mapLookup nd.price (sideOf (amend_order s order_id nd.price q).2 nd.is_buy)
            = some lvl'
        ∧ lvl'.chain = lvl.chain
        ∧ (lvl'.total_quantity + nd.quantity) % w64 = (lvl.total_quantity + q) % w64
        ∧ (nd.quantity ≤ lvl.total_quantity + q →
            lvl.total_quantity + q - nd.quantity < w64 →
            lvl'.total_quantity + nd.quantity = lvl.total_quantity + q)
        ∧ (∀ p₂, p₂ ≠ nd.price →
            mapLookup p₂ (sideOf (amend_order s order_id nd.price q).2 nd.is_buy)
              = mapLookup p₂ (sideOf s nd.is_buy))
        ∧ sideOf (amend_order s order_id nd.price q).2 (!nd.is_buy)
            = sideOf s (!nd.is_buy) := by
  obtain ⟨o, lvl, ho, hid, hlv, hmem⟩ := W.index_wf _ _ hl
  rw [hn, Option.some.injEq] at ho
  subst ho
  have hw : LevelWf s.nodes nd.is_buy nd.price lvl :=
    W.level_wf nd.is_buy (nd.price, lvl) (mapLookup_some_mem hlv)
  have hqlt : nd.quantity < w64 := by
    obtain ⟨o2, ho2, -, -, hq2⟩ := hw.members nid hmem
    rw [hn, Option.some.injEq] at ho2
    rw [ho2]
    exact hq2
  have htlt : lvl.total_quantity < w64 := by
    rw [hw.total_eq]
    exact Nat.mod_lt _ w64_pos
  have heq := amend_order_same_price hl hn (Nat.pos_iff_ne_zero.1 hq) hlv
  have hbne : (!nd.is_buy) ≠ nd.is_buy := by cases nd.is_buy <;> simp
  refine ⟨lvl, ⟨add64 (sub64 lvl.total_quantity nd.quantity) q, lvl.chain⟩,
    hlv, by rw [heq], ?_, rfl, amend_mod_eq htlt hqlt,
    fun h1 h2 => amend_exact_eq htlt hqlt h1 h2, ?_, ?_⟩
  · rw [heq, sideOf_mk_setSide2, if_pos rfl]
    exact mapLookup_mapInsert_self _ _ _ _
  · intro p₂ hp₂
    rw [heq, sideOf_mk_setSide2, if_pos rfl]
    exact mapLookup_mapInsert_ne _ _ _ hp₂
  · rw [heq, sideOf_mk_setSide2, if_neg hbne]

/-- C7 counterexample: after the two valid `2 ^ 63` adds, order 2 rests at
price 100 with quantity `2 ^ 63` on a level whose stored aggregate has
wrapped to 0; amending it to quantity 1 succeeds and stores aggregate
`2 ^ 63 + 1`, but "changes the aggregate by exactly `q - old_q`" would
require `new + old_q = old + q`, i.e. `(2 ^ 63 + 1) + 2 ^ 63 = 0 + 1`,
which is false — the exact-delta reading fails on this reachable state. -/
theorem c7_counterexample :
    validFrom emptyBook overflowOps = true
      ∧ (runOps emptyBook overflowOps).order_lookup 2 = some 1
      ∧ ((runOps emptyBook overflowOps).nodes 1).map Order.quantity
          = some (2 ^ 63)
      ∧ (mapLookup 100 (runOps emptyBook overflowOps).bids).map
          PriceLevelData.total_quantity = some 0
      ∧ (amend_order (runOps emptyBook overflowOps) 2 100 1).1 = true
      ∧ (mapLookup 100
            (amend_order (runOps emptyBook overflowOps) 2 100 1).2.bids).map
          PriceLevelData.total_quantity = some (2 ^ 63 + 1)
      ∧ ((2 ^ 63 + 1 : Nat) + 2 ^ 63 ≠ 0 + 1) := by
  decide

/-- C7 witness: amending the sole resting order of `wBook` (quantity 10 at
price 100) to quantity 4 at the same price. -/
theorem c7_same_price_amend_witness :
    ∃ lvl lvl',
      mapLookup 100 (sideOf wBook true) = some lvl
        ∧ (amend_order wBook 1 100 4).1 = true
        ∧ mapLookup 100 (sideOf (amend_order wBook 1 100 4).2 true) = some lvl'
        ∧ lvl'.chain = lvl.chain
        ∧ (lvl'.total_quantity + 10) % w64 = (lvl.total_quantity + 4) % w64
        ∧ (10 ≤ lvl.total_quantity + 4 → lvl.total_quantity + 4 - 10 < w64 →
            lvl'.total_quantity + 10 = lvl.total_quantity + 4)
        ∧ (∀ p₂, p₂ ≠ 100 →
            mapLookup p₂ (sideOf (amend_order wBook 1 100 4).2 true)
              = mapLookup p₂ (sideOf wBook true))
        ∧ sideOf (amend_order wBook 1 100 4).2 (!true) = sideOf wBook (!true) :=
  c7_same_price_amend wBook_wf (show wBook.order_lookup 1 = some 0 from rfl)
    (show wBook.nodes 0 = some wOrder from rfl) (show (0 : Nat) < 4 by decide)
    (show (4 : Nat) < w64 by decide)

/-- C8: a price-changing amend of a resting order to a positive quantity
succeeds; it updates the record's price and quantity, removes the record
from the old price's chain subtracting its old quantity (`uint64`
subtraction) from that aggregate, erases the old level exactly when the
record was its last occupant, and appends the record at the tail of the new
price's chain on the same side (creating the level when absent) with the
aggregate increased by the new quantity; all other levels and the other
side are untouched. -/
theorem c8_price_change_amend {s : State} (W : Wf s) {order_id : Nat}
    {nid : NodeId} {nd : Order} (hl : s.order_lookup order_id = some nid)
    (hn : s.nodes nid = some nd) {new_price : Int} (hnp : new_price ≠ nd.price)
    {q : Nat} (hq : 0 < q) :
    ∃ lvlO,
      mapLookup nd.price (sideOf s nd.is_buy) = some lvlO
        ∧ nid ∈ lvlO.chain
        ∧ (amend_order s order_id new_price q).1 = true
        ∧ (amend_order s order_id new_price q).2.nodes nid
            = some { nd with price := new_price, quantity := q }
        ∧ (lvlO.chain = [nid] →
            mapLookup nd.price
              (sideOf (amend_order s order_id new_price q).2 nd.is_buy) = none)
        ∧ (lvlO.chain ≠ [nid] →
            mapLookup nd.price
              (sideOf (amend_order s order_id new_price q).2 nd.is_buy)
              = some ⟨sub64 lvlO.total_quantity nd.quantity, lvlO.chain.erase nid⟩)
        ∧ (∃ lvlN,
            mapLookup new_price
              (sideOf (amend_order s order_id new_price q).2 nd.is_buy) = some lvlN
            ∧ lvlN.chain
                = ((mapLookup new_price (sideOf s nd.is_buy)).getD ⟨0, []⟩).chain
                    ++ [nid]
            ∧ lvlN.total_quantity
                = add64 ((mapLookup new_price (sideOf s nd.is_buy)).getD
                    ⟨0, []⟩).total_quantity q)
        ∧ (∀ p₂, p₂ ≠ nd.price → p₂ ≠ new_price →
            mapLookup p₂ (sideOf (amend_order s order_id new_price q).2 nd.is_buy)
              = mapLookup p₂ (sideOf s nd.is_buy))
        ∧ sideOf (amend_order s order_id new_price q).2 (!nd.is_buy)
            = sideOf s (!nd.is_buy) := by
  obtain ⟨o, lvlO, ho, hid, hlv, hmem⟩ := W.index_wf _ _ hl
  rw [hn, Option.some.injEq] at ho
  subst ho
  have hw : LevelWf s.nodes nd.is_buy nd.price lvlO :=
    W.level_wf nd.is_buy (nd.price, lvlO) (mapLookup_some_mem hlv)
  obtain ⟨m1, hrm, HS, Hne, Hnone, Hsome, HE⟩ :=
    removeFromLevel_spec (cmpOf_laws nd.is_buy) (W.sorted nd.is_buy) hlv nid
      nd.quantity
  have heq := amend_order_price_change hl hn (Nat.pos_iff_ne_zero.1 hq) hnp hrm
  have hnodup := hw.nodup
  have hbne : (!nd.is_buy) ≠ nd.is_buy := by cases nd.is_buy <;> simp
  refine ⟨lvlO, hlv, hmem, by rw [heq], ?_, ?_, ?_, ?_, ?_, ?_⟩
  · rw [heq, mk_setSide_nodes2]
    simp
  · intro hsingle
    rw [heq, sideOf_mk_setSide2, if_pos rfl]
    simp only [appendToLevel]
    rw [mapLookup_mapInsert_ne _ _ _ (Ne.symm hnp)]
    apply Hnone
    rw [filter_ne_nil_iff hnodup hmem]
    exact hsingle
  · intro hmulti
    rw [heq, sideOf_mk_setSide2, if_pos rfl]
    simp only [appendToLevel]
    rw [mapLookup_mapInsert_ne _ _ _ (Ne.symm hnp)]
    have hcf : lvlO.chain.filter (fun y => decide (y ≠ nid)) ≠ [] := by
      intro hx
      exact hmulti ((filter_ne_nil_iff hnodup hmem).1 hx)
    rw [Hsome hcf, filter_ne_eq_erase hnodup]
  · rw [heq, sideOf_mk_setSide2, if_pos rfl]
    simp only [appendToLevel]
    rw [mapLookup_mapInsert_self]
    refine ⟨_, rfl, ?_, ?_⟩
    · rw [Hne new_price hnp]
    · rw [Hne new_price hnp]
  · intro p₂ h1 h2
    rw [heq, sideOf_mk_setSide2, if_pos rfl]
    simp only [appendToLevel]
    rw [mapLookup_mapInsert_ne _ _ _ h2]
    exact Hne p₂ h1
  · rw [heq, sideOf_mk_setSide2, if_neg hbne]

/-- C8 witness: moving the sole resting order of `wBook` (id 1, quantity 10
at price 100) to price 101 with quantity 4. -/
theorem c8_price_change_amend_witness :
    ∃ lvlO,
      mapLookup 100 (sideOf wBook true) = some lvlO
        ∧ (0 : NodeId) ∈ lvlO.chain
        ∧ (amend_order wBook 1 101 4).1 = true
        ∧ (amend_order wBook 1 101 4).2.nodes 0 = some ⟨1, true, 101, 4, 0⟩
        ∧ (lvlO.chain = [0] →
            mapLookup 100 (sideOf (amend_order wBook 1 101 4).2 true) = none)
        ∧ (lvlO.chain ≠ [0] →
            mapLookup 100 (sideOf (amend_order wBook 1 101 4).2 true)
              = some ⟨sub64 lvlO.total_quantity 10, lvlO.chain.erase 0⟩)
        ∧ (∃ lvlN,
            mapLookup 101 (sideOf (amend_order wBook 1 101 4).2 true) = some lvlN
            ∧ lvlN.chain
                = ((mapLookup 101 (sideOf wBook true)).getD ⟨0, []⟩).chain ++ [0]
            ∧ lvlN.total_quantity
                = add64 ((mapLookup 101 (sideOf wBook true)).getD
                    ⟨0, []⟩).total_quantity 4)
        ∧ (∀ p₂, p₂ ≠ 100 → p₂ ≠ 101 →
            mapLookup p₂ (sideOf (amend_order wBook 1 101 4).2 true)
              = mapLookup p₂ (sideOf wBook true))
        ∧ sideOf (amend_order wBook 1 101 4).2 (!true) = sideOf wBook (!true) :=
  c8_price_change_amend wBook_wf (show wBook.order_lookup 1 = some 0 from rfl)
    (show wBook.nodes 0 = some wOrder from rfl)
    (show (101 : Int) ≠ wOrder.price by decide) (show (0 : Nat) < 4 by decide)

/-- C9: on sorted sides (the `std::map` representation invariant, which
every reachable state satisfies), `get_snapshot` returns at most `depth`
levels per side, empty sequences for `depth = 0`, bid prices strictly
decreasing, ask prices strictly increasing, and no duplicate prices.  The
embedding of the `const` method is a pure function of the state, so the
claim's "leaves the book unchanged" holds by construction. -/
theorem c9_snapshot_shape (s : State) (d : Nat)
    (hb : SortedBy bidCmp s.bids) (ha : SortedBy askCmp s.asks) :
    (get_snapshot s d).1.length ≤ d
      ∧ (get_snapshot s d).2.length ≤ d
      ∧ (d = 0 → (get_snapshot s d).1 = [] ∧ (get_snapshot s d).2 = [])
      ∧ (get_snapshot s d).1.Pairwise (fun x y => y.price < x.price)
      ∧ (get_snapshot s d).2.Pairwise (fun x y => x.price < y.price)
      ∧ ((get_snapshot s d).1.map PriceLevel.price).Nodup
      ∧ ((get_snapshot s d).2.map PriceLevel.price).Nodup := by
  have hb' : (s.bids.take d).Pairwise (fun a b => b.1 < a.1) := by
    refine (List.Pairwise.sublist (List.take_sublist d s.bids) hb).imp ?_
    intro a b h
    simpa [bidCmp] using h
  have ha' : (s.asks.take d).Pairwise (fun a b => a.1 < b.1) := by
    refine (List.Pairwise.sublist (List.take_sublist d s.asks) ha).imp ?_
    intro a b h
    simpa [askCmp] using h
  refine ⟨?_, ?_, ?_, ?_, ?_, ?_, ?_⟩
  · simp only [get_snapshot, List.length_map, List.length_take]
    exact min_le_left _ _
  · simp only [get_snapshot, List.length_map, List.length_take]
    exact min_le_left _ _
  · intro hd
    subst hd
    simp [get_snapshot]
  · rw [get_snapshot, List.pairwise_map]
    exact hb'
  · rw [get_snapshot, List.pairwise_map]
    exact ha'
  · rw [get_snapshot, List.map_map]
    exact List.Pairwise.map _ (fun a b h => ne_of_gt h) hb'
  · rw [get_snapshot, List.map_map]
    exact List.Pairwise.map _ (fun a b h => ne_of_lt h) ha'

/-- C9 witness: the one-order book at depth 2. -/
theorem c9_snapshot_shape_witness :
    (get_snapshot wBook 2).1.length ≤ 2
      ∧ (get_snapshot wBook 2).2.length ≤ 2
      ∧ ((2 : Nat) = 0 → (get_snapshot wBook 2).1 = [] ∧ (get_snapshot wBook 2).2 = [])
      ∧ (get_snapshot wBook 2).1.Pairwise (fun x y => y.price < x.price)
      ∧ (get_snapshot wBook 2).2.Pairwise (fun x y => x.price < y.price)
      ∧ ((get_snapshot wBook 2).1.map PriceLevel.price).Nodup
      ∧ ((get_snapshot wBook 2).2.map PriceLevel.price).Nodup :=
  c9_snapshot_shape wBook 2 (wBook_wf.sorted true) (wBook_wf.sorted false)

/-- C10: adding a second order that reuses the identifier of a resting
order overwrites the index entry with the freshly allocated record; the
previously resting record stays linked in its level's chain with its
quantity still counted in that level's aggregate (the aggregate only ever
grows by the new order's quantity when it lands on the same level), and no
identifier in the index resolves to the old record any more — so it can
never be cancelled or amended again. -/
theorem c10_duplicate_add_shadows {s : State} (W : Wf s) {n0 : NodeId}
    (o : Order) (hl : s.order_lookup o.order_id = some n0) :
    (add_order s o).order_lookup o.order_id = some s.next_node
      ∧ n0 ≠ s.next_node
      ∧ (∃ o0 lvl lvl', s.nodes n0 = some o0
          ∧ (add_order s o).nodes n0 = some o0
          ∧ mapLookup o0.price (sideOf s o0.is_buy) = some lvl
          ∧ n0 ∈ lvl.chain
          ∧ mapLookup o0.price (sideOf (add_order s o) o0.is_buy) = some lvl'
          ∧ n0 ∈ lvl'.chain
          ∧ lvl'.total_quantity
              = (if o.is_buy = o0.is_buy ∧ o.price = o0.price
                  then add64 lvl.total_quantity o.quantity
                  else lvl.total_quantity))
      ∧ (∀ i, (add_order s o).order_lookup i ≠ some n0) := by
  obtain ⟨o0, lvl, ho0, hid0, hlv0, hmem0⟩ := W.index_wf _ _ hl
  have hn0lt : n0 < s.next_node := W.fresh n0 o0 ho0
  have hne : n0 ≠ s.next_node := Nat.ne_of_lt hn0lt
  refine ⟨by simp [add_order_order_lookup], hne, ?_, ?_⟩
  · by_cases hsp : o.is_buy = o0.is_buy ∧ o.price = o0.price
    · obtain ⟨hb0, hp0⟩ := hsp
      have hlvo : mapLookup o.price (sideOf s o.is_buy) = some lvl := by
        rw [hp0, hb0]
        exact hlv0
      have hnew : mapLookup o0.price (sideOf (add_order s o) o0.is_buy)
          = some ⟨add64 lvl.total_quantity o.quantity,
                  lvl.chain ++ [s.next_node]⟩ := by
        rw [← hb0, ← hp0]
        rw [sideOf_add_order, if_pos rfl]
        simp only [appendToLevel]
        rw [hlvo]
        simp only [Option.getD_some]
        exact mapLookup_mapInsert_self _ _ _ _
      exact ⟨o0, lvl, _, ho0, by simp [add_order_nodes, hne, ho0], hlv0, hmem0,
        hnew, List.mem_append_left _ hmem0, by rw [if_pos ⟨hb0, hp0⟩]⟩
    · have hneq : o0.is_buy = o.is_buy → o0.price ≠ o.price := by
        intro hb0 hp0
        exact hsp ⟨hb0.symm, hp0.symm⟩
      have hold : mapLookup o0.price (sideOf (add_order s o) o0.is_buy)
          = mapLookup o0.price (sideOf s o0.is_buy) := by
        rw [sideOf_add_order]
        by_cases hcb : o0.is_buy = o.is_buy
        · rw [if_pos hcb, hcb]
          simp only [appendToLevel]
          exact mapLookup_mapInsert_ne _ _ _ (hneq hcb)
        · rw [if_neg hcb]
      refine ⟨o0, lvl, lvl, ho0, by simp [add_order_nodes, hne, ho0], hlv0, hmem0,
        ?_, hmem0, ?_⟩
      · rw [hold]
        exact hlv0
      · rw [if_neg hsp]
  · intro i
    simp only [add_order_order_lookup]
    by_cases hio : i = o.order_id
    · rw [if_pos hio]
      intro hx
      rw [Option.some.injEq] at hx
      exact hne hx.symm
    · rw [if_neg hio]
      intro hx
      exact hio (W.index_inj i o.order_id n0 hx hl)

def wOrder2 : Order := ⟨1, true, 100, 5, 0⟩

/-- C10 witness: re-adding identifier 1 over `wBook` points the index at
the new record (slot 1), and no identifier resolves to the shadowed record
in slot 0 any more. -/
theorem c10_duplicate_add_shadows_witness :
    (add_order wBook wOrder2).order_lookup 1 = some 1
      ∧ (0 : NodeId) ≠ 1
      ∧ (add_order wBook wOrder2).order_lookup 1 ≠ some 0 :=
  ⟨(c10_duplicate_add_shadows wBook_wf wOrder2 rfl).1,
   (c10_duplicate_add_shadows wBook_wf wOrder2 rfl).2.1,
   (c10_duplicate_add_shadows wBook_wf wOrder2 rfl).2.2.2 1⟩

end OrderBook
